import Mathlib

/-!
Verification development for the AI-agent file-sorting repository.

Python strings are modelled as `List Char`; decoded JSON strings as `List Nat`
(code points, so that lone surrogates produced by `\uXXXX` escapes are
representable).  Filesystem paths are modelled as strings plus, where needed,
parsed component lists.  Machine-level effects (actual directory scans, the
network call to the model, the physical move) are parameters ("oracles") of the
embedded functions; everything that the claims are about — string processing,
path computation, sanitizer control flow, the consensus tracker, the queue —
is translated from the source.
-/

namespace FileSort

/-- Character list of a string literal (the model of a Python `str` value). -/
def cl (s : String) : List Char := s.toList

/-- Python whitespace as used by `str.strip()` and `\s` (ASCII part plus the
Unicode whitespace code points). -/
def pyIsSpace (c : Char) : Bool :=
  let n := c.toNat
  (9 ≤ n && n ≤ 13) || n == 32 || (28 ≤ n && n ≤ 31) || n == 0x85 || n == 0xa0 ||
  n == 0x1680 || (0x2000 ≤ n && n ≤ 0x200a) || n == 0x2028 || n == 0x2029 ||
  n == 0x202f || n == 0x205f || n == 0x3000

/-- Drop matching characters from the tail of a list. -/
def dropTrail (p : Char → Bool) (l : List Char) : List Char :=
  (l.reverse.dropWhile p).reverse

/-- Python `str.strip()` (no argument): strip whitespace from both ends. -/
def pyStrip (l : List Char) : List Char :=
  dropTrail pyIsSpace (l.dropWhile pyIsSpace)

/-- Python `str.strip(t)` for a single-character argument `t`. -/
def stripAll (t : Char) (l : List Char) : List Char :=
  dropTrail (fun c => c == t) (l.dropWhile (fun c => c == t))

/-- Python regex `\w` restricted to ASCII (the inputs reaching it have been
transliterated to ASCII first): letters, digits and underscore. -/
def isWordChar (c : Char) : Bool :=
  let n := c.toNat
  (65 ≤ n && n ≤ 90) || (97 ≤ n && n ≤ 122) || (48 ≤ n && n ≤ 57) || n == 95

/-- The character class `[\w.\-() ]` of `safe_ascii`'s first substitution
(code points 46, 45, 40, 41, 32 are the dot, dash, parens and blank). -/
def isAllowedChar (c : Char) : Bool :=
  isWordChar c || c.toNat == 46 || c.toNat == 45 || c.toNat == 40 ||
    c.toNat == 41 || c.toNat == 32

/-- `re.sub(r"[^\w.\-() ]+", "_", s)`: replace each maximal run of characters
outside the class by a single underscore.  The boolean flag records whether the
previous character was part of such a run. -/
def subDisallowedRunsB : Bool → List Char → List Char
  | _, [] => []
  | inRun, c :: rest =>
    if isAllowedChar c then c :: subDisallowedRunsB false rest
    else if inRun then subDisallowedRunsB true rest
    else '_' :: subDisallowedRunsB true rest

def subDisallowedRuns (l : List Char) : List Char := subDisallowedRunsB false l

/-- `re.sub(r"\s+", " ", s)`: replace each maximal whitespace run by one blank. -/
def collapseSpB : Bool → List Char → List Char
  | _, [] => []
  | inRun, c :: rest =>
    if pyIsSpace c then
      (if inRun then collapseSpB true rest else ' ' :: collapseSpB true rest)
    else c :: collapseSpB false rest

def collapseSpaceRuns (l : List Char) : List Char := collapseSpB false l

/-- The string-rewriting pipeline of `utils_fs.safe_ascii`: transliterate,
replace disallowed runs, strip, collapse whitespace runs, strip. -/
def safeAsciiCore (uni : Char → List Char) (s : List Char) : List Char :=
  pyStrip (collapseSpaceRuns (pyStrip (subDisallowedRuns ((s.map uni).flatten))))

/-- `utils_fs.safe_ascii`.  The `unidecode` transliteration is an external
library and is passed as a parameter `uni`; its one property used below is
that it is the identity on ASCII characters. -/
def safe_ascii (uni : Char → List Char) (s : List Char) : List Char :=
  if safeAsciiCore uni s = [] then cl "unnamed" else safeAsciiCore uni s

/-! Facts about `safe_ascii` used for claim C9. -/

theorem char_eq_of_toNat {c d : Char} (h : c.toNat = d.toNat) : c = d := by
  apply Char.ext
  exact UInt32.ext h

theorem isAllowedChar_ascii {c : Char} (h : isAllowedChar c = true) : c.toNat < 128 := by
  simp only [isAllowedChar, isWordChar, Bool.or_eq_true, Bool.and_eq_true,
    decide_eq_true_eq, beq_iff_eq] at h
  omega

theorem isAllowedChar_space_eq {c : Char} (h : isAllowedChar c = true)
    (hs : pyIsSpace c = true) : c = ' ' := by
  simp only [isAllowedChar, isWordChar, Bool.or_eq_true, Bool.and_eq_true,
    decide_eq_true_eq, beq_iff_eq] at h
  simp only [pyIsSpace, Bool.or_eq_true, Bool.and_eq_true, decide_eq_true_eq,
    beq_iff_eq] at hs
  have h32 : c.toNat = 32 := by omega
  exact char_eq_of_toNat (by rw [h32]; rfl)

theorem mem_subDisallowedRunsB {flag : Bool} {l : List Char} {c : Char}
    (h : c ∈ subDisallowedRunsB flag l) : isAllowedChar c = true := by
  induction l generalizing flag with
  | nil => simp [subDisallowedRunsB] at h
  | cons d rest ih =>
    by_cases hd : isAllowedChar d = true
    · simp only [subDisallowedRunsB, hd, if_true, List.mem_cons] at h
      rcases h with h | h
      · subst h; exact hd
      · exact ih h
    · simp only [subDisallowedRunsB, hd] at h
      cases flag with
      | true => simpa using ih h
      | false =>
        simp only [Bool.false_eq_true, if_false, List.mem_cons] at h
        rcases h with h | h
        · subst h; decide
        · exact ih h

theorem subDisallowedRunsB_id {l : List Char}
    (h : ∀ c ∈ l, isAllowedChar c = true) (flag : Bool) :
    subDisallowedRunsB flag l = l := by
  induction l generalizing flag with
  | nil => rfl
  | cons d rest ih =>
    have hd : isAllowedChar d = true := h d (List.mem_cons_self d rest)
    simp only [subDisallowedRunsB, hd, if_true]
    exact congrArg (d :: ·) (ih (fun c hc => h c (List.mem_cons_of_mem d hc)) false)

theorem mem_collapseSpB {flag : Bool} {l : List Char} {c : Char}
    (h : c ∈ collapseSpB flag l) : c ∈ l ∨ c = ' ' := by
  induction l generalizing flag with
  | nil => simp [collapseSpB] at h
  | cons d rest ih =>
    by_cases hd : pyIsSpace d = true
    · cases flag with
      | true =>
        rw [show collapseSpB true (d :: rest) = collapseSpB true rest from by
          simp [collapseSpB, hd]] at h
        rcases ih h with h2 | h2
        · exact Or.inl (List.mem_cons_of_mem d h2)
        · exact Or.inr h2
      | false =>
        rw [show collapseSpB false (d :: rest) = ' ' :: collapseSpB true rest from by
          simp [collapseSpB, hd]] at h
        rcases List.mem_cons.mp h with h2 | h2
        · exact Or.inr h2
        · rcases ih h2 with h3 | h3
          · exact Or.inl (List.mem_cons_of_mem d h3)
          · exact Or.inr h3
    · rw [show collapseSpB flag (d :: rest) = d :: collapseSpB false rest from by
        cases flag <;> simp [collapseSpB, hd]] at h
      rcases List.mem_cons.mp h with h2 | h2
      · exact Or.inl (by simp [h2])
      · rcases ih h2 with h3 | h3
        · exact Or.inl (List.mem_cons_of_mem d h3)
        · exact Or.inr h3

/-- No two adjacent whitespace characters. -/
def noDoubleSpace : List Char → Bool
  | c :: d :: rest => (!(pyIsSpace c && pyIsSpace d)) && noDoubleSpace (d :: rest)
  | _ => true

theorem head?_dropWhile_not {p : Char → Bool} {l : List Char} {c : Char}
    (h : (l.dropWhile p).head? = some c) : p c = false := by
  induction l with
  | nil => simp [List.dropWhile] at h
  | cons d rest ih =>
    by_cases hd : p d = true
    · rw [List.dropWhile_cons_of_pos hd] at h
      exact ih h
    · rw [List.dropWhile_cons_of_neg hd] at h
      simp only [List.head?_cons, Option.some.injEq] at h
      subst h
      simpa using hd

theorem collapseSpB_true_head {l : List Char} {c : Char}
    (h : (collapseSpB true l).head? = some c) : pyIsSpace c = false := by
  induction l with
  | nil => simp [collapseSpB] at h
  | cons d rest ih =>
    by_cases hd : pyIsSpace d = true
    · rw [show collapseSpB true (d :: rest) = collapseSpB true rest from by
        simp [collapseSpB, hd]] at h
      exact ih h
    · rw [show collapseSpB true (d :: rest) = d :: collapseSpB false rest from by
        simp [collapseSpB, hd]] at h
      simp only [List.head?_cons, Option.some.injEq] at h
      subst h
      simpa using hd

theorem noDoubleSpace_collapseSpB (l : List Char) (flag : Bool) :
    noDoubleSpace (collapseSpB flag l) = true := by
  induction l generalizing flag with
  | nil => rfl
  | cons d rest ih =>
    by_cases hd : pyIsSpace d = true
    · cases flag with
      | true =>
        rw [show collapseSpB true (d :: rest) = collapseSpB true rest from by
          simp [collapseSpB, hd]]
        exact ih true
      | false =>
        rw [show collapseSpB false (d :: rest) = ' ' :: collapseSpB true rest from by
          simp [collapseSpB, hd]]
        cases hout : collapseSpB true rest with
        | nil => rfl
        | cons e out' =>
          have he : pyIsSpace e = false := collapseSpB_true_head (by rw [hout]; rfl)
          have hrest : noDoubleSpace (e :: out') = true := by rw [← hout]; exact ih true
          simp [noDoubleSpace, he, hrest]
    · rw [show collapseSpB flag (d :: rest) = d :: collapseSpB false rest from by
        cases flag <;> simp [collapseSpB, hd]]
      cases hout : collapseSpB false rest with
      | nil => rfl
      | cons e out' =>
        have hrest : noDoubleSpace (e :: out') = true := by rw [← hout]; exact ih false
        simp [noDoubleSpace, hd, hrest]

theorem collapseSpB_id {l : List Char}
    (hnd : noDoubleSpace l = true) (hsp : ∀ c ∈ l, pyIsSpace c = true → c = ' ') :
    collapseSpB false l = l ∧
      ((∀ c, l.head? = some c → pyIsSpace c = false) → collapseSpB true l = l) := by
  induction l with
  | nil => exact ⟨rfl, fun _ => rfl⟩
  | cons d rest ih =>
    have hnd' : noDoubleSpace rest = true := by
      cases rest with
      | nil => rfl
      | cons e r2 =>
        simp only [noDoubleSpace, Bool.and_eq_true] at hnd
        exact hnd.2
    have hsp' : ∀ c ∈ rest, pyIsSpace c = true → c = ' ' :=
      fun c hc => hsp c (List.mem_cons_of_mem d hc)
    by_cases hd : pyIsSpace d = true
    · have hd' : d = ' ' := hsp d (List.mem_cons_self d rest) hd
      subst hd'
      constructor
      · have hresthead : ∀ c, rest.head? = some c → pyIsSpace c = false := by
          intro c hc
          cases rest with
          | nil => simp at hc
          | cons e r2 =>
            simp only [List.head?_cons, Option.some.injEq] at hc
            subst hc
            simp only [noDoubleSpace, Bool.and_eq_true, Bool.not_eq_true'] at hnd
            have h1 := hnd.1
            rw [hd] at h1
            simpa using h1
        have hrid : collapseSpB true rest = rest := (ih hnd' hsp').2 hresthead
        simp [collapseSpB, hd, hrid]
      · intro hh
        exfalso
        have h1 := hh ' ' (by simp)
        rw [hd] at h1
        exact absurd h1 (by decide)
    · have hrid : collapseSpB false rest = rest := (ih hnd' hsp').1
      constructor
      · simp [collapseSpB, hd, hrid]
      · intro _
        simp [collapseSpB, hd, hrid]

theorem dropTrail_isPre (p : Char → Bool) (l : List Char) :
    ∃ t, dropTrail p l ++ t = l := by
  unfold dropTrail
  obtain ⟨t, ht⟩ : ∃ t, t ++ l.reverse.dropWhile p = l.reverse :=
    ⟨l.reverse.takeWhile p, List.takeWhile_append_dropWhile _ _⟩
  refine ⟨t.reverse, ?_⟩
  have := congrArg List.reverse ht
  simpa using this

theorem mem_pyStrip {l : List Char} {c : Char} (h : c ∈ pyStrip l) : c ∈ l := by
  unfold pyStrip at h
  obtain ⟨t, ht⟩ := dropTrail_isPre pyIsSpace (l.dropWhile pyIsSpace)
  have h1 : c ∈ l.dropWhile pyIsSpace := by
    rw [← ht]
    exact List.mem_append_left _ h
  exact (List.dropWhile_sublist _).subset h1

theorem noDoubleSpace_append_right {l t : List Char}
    (h : noDoubleSpace (l ++ t) = true) : noDoubleSpace l = true := by
  induction l with
  | nil => rfl
  | cons d rest ih =>
    cases rest with
    | nil => rfl
    | cons e r2 =>
      simp only [List.cons_append, noDoubleSpace, Bool.and_eq_true] at h ⊢
      exact ⟨h.1, ih (by simpa using h.2)⟩

theorem noDoubleSpace_tail {d : Char} {l : List Char}
    (h : noDoubleSpace (d :: l) = true) : noDoubleSpace l = true := by
  cases l with
  | nil => rfl
  | cons e r2 =>
    simp only [noDoubleSpace, Bool.and_eq_true] at h
    exact h.2

theorem noDoubleSpace_dropWhile {p : Char → Bool} {l : List Char}
    (h : noDoubleSpace l = true) : noDoubleSpace (l.dropWhile p) = true := by
  induction l with
  | nil => rfl
  | cons d rest ih =>
    by_cases hd : p d = true
    · rw [List.dropWhile_cons_of_pos hd]
      exact ih (noDoubleSpace_tail h)
    · rw [List.dropWhile_cons_of_neg hd]
      exact h

theorem noDoubleSpace_pyStrip {l : List Char}
    (h : noDoubleSpace l = true) : noDoubleSpace (pyStrip l) = true := by
  unfold pyStrip
  obtain ⟨t, ht⟩ := dropTrail_isPre pyIsSpace (l.dropWhile pyIsSpace)
  have h1 : noDoubleSpace (l.dropWhile pyIsSpace) = true := noDoubleSpace_dropWhile h
  rw [← ht] at h1
  exact noDoubleSpace_append_right h1

theorem pyStrip_head {l : List Char} {c : Char}
    (h : (pyStrip l).head? = some c) : pyIsSpace c = false := by
  unfold pyStrip at h
  obtain ⟨t, ht⟩ := dropTrail_isPre pyIsSpace (l.dropWhile pyIsSpace)
  have hne : dropTrail pyIsSpace (l.dropWhile pyIsSpace) ≠ [] := by
    intro hcontr
    rw [hcontr] at h
    simp at h
  have h1 : (l.dropWhile pyIsSpace).head? = some c := by
    rw [← ht]
    cases hd : dropTrail pyIsSpace (l.dropWhile pyIsSpace) with
    | nil => exact absurd hd hne
    | cons e r2 =>
      rw [hd] at h
      simp only [List.head?_cons, Option.some.injEq] at h
      subst h
      simp
  exact head?_dropWhile_not h1

theorem pyStrip_getLast {l : List Char} {c : Char}
    (h : (pyStrip l).getLast? = some c) : pyIsSpace c = false := by
  unfold pyStrip dropTrail at h
  set m := (l.dropWhile pyIsSpace).reverse.dropWhile pyIsSpace with hm
  have h1 : m.head? = some c := by
    have := h
    rw [List.getLast?_reverse] at this
    exact this
  exact head?_dropWhile_not h1

theorem pyStrip_id {l : List Char}
    (hh : ∀ c, l.head? = some c → pyIsSpace c = false)
    (ht : ∀ c, l.getLast? = some c → pyIsSpace c = false) :
    pyStrip l = l := by
  unfold pyStrip
  have h1 : l.dropWhile pyIsSpace = l := by
    cases l with
    | nil => rfl
    | cons d rest =>
      have := hh d (by simp)
      rw [List.dropWhile_cons_of_neg (by simp [this])]
  rw [h1]
  unfold dropTrail
  have h2 : l.reverse.dropWhile pyIsSpace = l.reverse := by
    cases hr : l.reverse with
    | nil => simp
    | cons d rest =>
      have hd : l.getLast? = some d := by
        rw [← List.head?_reverse, hr]
        simp
      have := ht d hd
      rw [List.dropWhile_cons_of_neg (by simp [this])]
  rw [h2, List.reverse_reverse]

theorem uniJoin_id {uni : Char → List Char}
    (h : ∀ c : Char, c.toNat < 128 → uni c = [c]) {l : List Char}
    (hl : ∀ c ∈ l, c.toNat < 128) : (l.map uni).flatten = l := by
  induction l with
  | nil => rfl
  | cons d rest ih =>
    simp only [List.map_cons, List.flatten_cons]
    rw [h d (hl d (List.mem_cons_self d rest)),
      ih (fun c hc => hl c (List.mem_cons_of_mem d hc))]
    rfl

theorem safeAsciiCore_chars {uni : Char → List Char} {s : List Char} :
    ∀ c ∈ safeAsciiCore uni s, isAllowedChar c = true := by
  intro c hc
  have h1 := mem_pyStrip hc
  rcases mem_collapseSpB h1 with h2 | h2
  · exact mem_subDisallowedRunsB (mem_pyStrip h2)
  · subst h2; decide

/-- Every character of `safe_ascii`'s output is in the allowed class. -/
theorem safe_ascii_chars (uni : Char → List Char) (s : List Char) :
    ∀ c ∈ safe_ascii uni s, isAllowedChar c = true := by
  intro c hc
  unfold safe_ascii at hc
  by_cases hemp : safeAsciiCore uni s = []
  · rw [if_pos hemp] at hc
    exact (show ∀ d ∈ cl "unnamed", isAllowedChar d = true by decide) c hc
  · rw [if_neg hemp] at hc
    exact safeAsciiCore_chars c hc

theorem safe_ascii_ne_nil (uni : Char → List Char) (s : List Char) :
    safe_ascii uni s ≠ [] := by
  unfold safe_ascii
  split
  · decide
  · assumption

theorem safe_ascii_noDouble (uni : Char → List Char) (s : List Char) :
    noDoubleSpace (safe_ascii uni s) = true := by
  unfold safe_ascii
  split
  · decide
  · exact noDoubleSpace_pyStrip (noDoubleSpace_collapseSpB _ false)

theorem safe_ascii_head (uni : Char → List Char) (s : List Char) :
    ∀ c, (safe_ascii uni s).head? = some c → pyIsSpace c = false := by
  unfold safe_ascii
  split
  · intro c hc
    simp only [show cl "unnamed" = 'u' :: cl "nnamed" from rfl, List.head?_cons,
      Option.some.injEq] at hc
    subst hc
    decide
  · intro c hc
    exact pyStrip_head hc

theorem safe_ascii_getLast (uni : Char → List Char) (s : List Char) :
    ∀ c, (safe_ascii uni s).getLast? = some c → pyIsSpace c = false := by
  unfold safe_ascii
  split
  · intro c hc
    simp only [show (cl "unnamed").getLast? = some 'd' from rfl,
      Option.some.injEq] at hc
    subst hc
    decide
  · intro c hc
    exact pyStrip_getLast hc

/-- C9 core: `safe_ascii` output is a fixed point of `safe_ascii`. -/
theorem safe_ascii_fixed (uni : Char → List Char)
    (h : ∀ c : Char, c.toNat < 128 → uni c = [c]) (s : List Char) :
    safe_ascii uni (safe_ascii uni s) = safe_ascii uni s := by
  set o := safe_ascii uni s with ho
  have hchars : ∀ c ∈ o, isAllowedChar c = true := safe_ascii_chars uni s
  have hascii : ∀ c ∈ o, c.toNat < 128 := fun c hc => isAllowedChar_ascii (hchars c hc)
  have hnd : noDoubleSpace o = true := safe_ascii_noDouble uni s
  have hsp : ∀ c ∈ o, pyIsSpace c = true → c = ' ' :=
    fun c hc hspace => isAllowedChar_space_eq (hchars c hc) hspace
  have hne : o ≠ [] := safe_ascii_ne_nil uni s
  have hhead : ∀ c, o.head? = some c → pyIsSpace c = false := safe_ascii_head uni s
  have hlast : ∀ c, o.getLast? = some c → pyIsSpace c = false := safe_ascii_getLast uni s
  have hcore : safeAsciiCore uni o = o := by
    unfold safeAsciiCore collapseSpaceRuns subDisallowedRuns
    rw [uniJoin_id h hascii, subDisallowedRunsB_id hchars false,
      pyStrip_id hhead hlast, (collapseSpB_id hnd hsp).1, pyStrip_id hhead hlast]
  unfold safe_ascii
  rw [hcore, if_neg hne]

/-- C9: for every input string `s`, `safe_ascii(s)` is defined (total), never
returns the empty string, and is idempotent:
`safe_ascii(safe_ascii(s)) = safe_ascii(s)`.  The `unidecode` transliteration
parameter is only assumed to be the identity on ASCII characters, which the
real library satisfies. -/
theorem safe_ascii_total_idem (uni : Char → List Char)
    (h : ∀ c : Char, c.toNat < 128 → uni c = [c]) (s : List Char) :
    safe_ascii uni (safe_ascii uni s) = safe_ascii uni s ∧ safe_ascii uni s ≠ [] :=
  ⟨safe_ascii_fixed uni h s, safe_ascii_ne_nil uni s⟩

/-- Witness for C9 at a concrete input. -/
theorem safe_ascii_total_idem_witness :
    (safe_ascii (fun c => [c]) (safe_ascii (fun c => [c]) (cl " he(l)lo   wo@@rld.txt "))
        = safe_ascii (fun c => [c]) (cl " he(l)lo   wo@@rld.txt ")
      ∧ safe_ascii (fun c => [c]) (cl " he(l)lo   wo@@rld.txt ") ≠ [])
    ∧ safe_ascii (fun c => [c]) (cl " he(l)lo   wo@@rld.txt ") = cl "he(l)lo wo_rld.txt" :=
  ⟨safe_ascii_total_idem (fun c => [c]) (fun c _ => rfl) (cl " he(l)lo   wo@@rld.txt "),
    by decide⟩

/-! ## utils_fs: queue purge (claim C6)

`os.sep` is `/` on the POSIX systems this program targets.  `Path.resolve()`
performs filesystem-dependent resolution and is passed as the parameter
`res`; the `try`/`except` fallback (`str(moved_path)` on failure) is covered
because `res` is universally quantified. -/

/-- `a` starts with the pattern `pat`. -/
def lStarts : List Char → List Char → Bool
  | [], _ => true
  | _ :: _, [] => false
  | p :: ps, a :: as_ => p == a && lStarts ps as_

/-- One iteration of the `while queue:` loop of `purge_queue_under`:
entries are popped from the front and the kept ones appended to `keep`. -/
def purgeLoop (drop : List Char → Bool) :
    List (List Char) → List (List Char) → List (List Char)
  | [], keep => keep.reverse
  | q :: rest, keep =>
    if drop q then purgeLoop drop rest keep else purgeLoop drop rest (q :: keep)

/-- `utils_fs.purge_queue_under`: remove every queued entry whose resolved
path equals the moved path or lies under it (`moved + os.sep` as a prefix);
the queue is rebuilt from the kept entries in order. -/
def purge_queue_under (res : List Char → List Char) (queue : List (List Char))
    (moved : List Char) : List (List Char) :=
  purgeLoop (fun q => res q == res moved || lStarts (res moved ++ ['/']) (res q))
    queue []

theorem purgeLoop_eq (drop : List Char → Bool) (l keep : List (List Char)) :
    purgeLoop drop l keep = keep.reverse ++ l.filter (fun q => !(drop q)) := by
  induction l generalizing keep with
  | nil => simp [purgeLoop]
  | cons q rest ih =>
    by_cases hq : drop q = true
    · simp [purgeLoop, hq, ih]
    · simp only [purgeLoop, hq, Bool.false_eq_true, if_false, ih,
        List.filter_cons, Bool.not_eq_true']
      simp [hq]

/-- C6: for every queue state and moved path, `purge_queue_under` removes
exactly the entries whose resolved path equals the moved path or lies
strictly inside its subtree (resolved equal, or `moved + '/'` a prefix), and
every other entry is retained in its original relative order: the result is
the order-preserving filter of the queue by that predicate. -/
theorem purge_queue_under_filter (res : List Char → List Char)
    (queue : List (List Char)) (moved : List Char) :
    purge_queue_under res queue moved =
      queue.filter
        (fun q => !(res q == res moved || lStarts (res moved ++ ['/']) (res q)))
      ∧ List.Sublist (purge_queue_under res queue moved) queue := by
  constructor
  · unfold purge_queue_under
    rw [purgeLoop_eq]
    rfl
  · unfold purge_queue_under
    rw [purgeLoop_eq]
    simp only [List.reverse_nil, List.nil_append]
    exact List.filter_sublist queue

/-! ## Path helpers (Python `str.split`, `pathlib` parsing, `posixpath.normpath`) -/

/-- `str.split(t)` accumulator; Python keeps empty pieces. -/
def splitOnAux (t : Char) : List Char → List Char → List (List Char)
  | [], cur => [cur.reverse]
  | c :: rest, cur =>
    if c == t then cur.reverse :: splitOnAux t rest []
    else splitOnAux t rest (c :: cur)

/-- Python `str.split(t)` for a one-character separator. -/
def splitOn (t : Char) (l : List Char) : List (List Char) := splitOnAux t l []

/-- Python `t.join(parts)` for a one-character separator. -/
def joinWith (t : Char) : List (List Char) → List Char
  | [] => []
  | [p] => p
  | p :: ps => p ++ t :: joinWith t ps

/-- Python `str.split(t, 1)`: the head before the first separator and,
when a separator occurs, the remainder after it. -/
def splitFirst (t : Char) : List Char → List Char × Option (List Char)
  | [] => ([], none)
  | c :: rest =>
    if c == t then ([], some rest)
    else
      match splitFirst t rest with
      | (h, r) => (c :: h, r)

/-- ASCII lower-casing; models Python `str.lower`/`str.casefold` on the ASCII
labels this program compares (non-ASCII characters are left unchanged). -/
def asciiFold (l : List Char) : List Char :=
  l.map (fun c => if 65 ≤ c.toNat && c.toNat ≤ 90 then Char.ofNat (c.toNat + 32) else c)

/-- The number of leading slashes `pathlib`/`posixpath` preserve as the root
(`//` is special on POSIX; three or more collapse to one). -/
def ppRoot (s : List Char) : Nat :=
  if lStarts (cl "//") s && !(lStarts (cl "///") s) then 2
  else if lStarts (cl "/") s then 1 else 0

/-- A parsed `pathlib.PurePosixPath`: root marker and components (`pathlib`
drops empty and `.` components and keeps `..`). -/
structure PPath where
  root : Nat
  comps : List (List Char)
deriving DecidableEq

def parsePPath (s : List Char) : PPath :=
  ⟨ppRoot s, (splitOn '/' s).filter (fun p => !(p == []) && !(p == cl "."))⟩

/-- `str(path)` for a parsed path (`.` for an empty relative path). -/
def ppathStr (p : PPath) : List Char :=
  let j := joinWith '/' p.comps
  if p.root == 0 then (if j = [] then cl "." else j)
  else List.replicate p.root '/' ++ j

/-- `pathlib.Path(s).name` (last component, empty for a root). -/
def pathNameStr (s : List Char) : List Char :=
  ((parsePPath s).comps.getLast?).getD []

/-- `pathlib.Path(s).suffix`: from the last dot of the name, unless the dot
is leading or trailing. -/
def pathSuffix (s : List Char) : List Char :=
  let n := pathNameStr s
  match n.reverse.findIdx? (fun c => c == '.') with
  | none => []
  | some k =>
    let i := n.length - 1 - k
    if 0 < i && i < n.length - 1 then n.drop i else []

/-- `posixpath.normpath` (the Unicode normalization in `fs_norm_path` is
modelled as the identity: all comparisons here are on already-normalized
text). -/
def normpath (s : List Char) : List Char :=
  if s = [] then cl "." else
  let slashes := ppRoot s
  let comps := (splitOn '/' s).filter (fun p => !(p == []) && !(p == cl "."))
  let newComps := comps.foldl
    (fun acc comp =>
      if !(comp == cl "..") || (slashes == 0 && acc.isEmpty) ||
          (!acc.isEmpty && acc.getLast? == some (cl "..")) then acc ++ [comp]
      else if !acc.isEmpty then acc.dropLast
      else acc) []
  let res := List.replicate slashes '/' ++ joinWith '/' newComps
  if res = [] then cl "." else res

/-- `utils_fs.fs_norm_path` (Unicode NFC/NFD normalization modelled as the
identity, composed with `os.path.normpath`). -/
def fs_norm_path (s : List Char) : List Char := normpath s

/-! ## agent.CohesionTracker (claims C4 and C10)

`collections.Counter` is modelled as an association list in insertion order;
`most_common(1)` is the first maximal entry, matching `Counter`'s tie-break.
The float comparisons are modelled exactly over the rationals, in
cross-multiplied `Nat` form: the purity threshold `0.8` is the pair
`purityNum/purityDen = 4/5`, and `cnt/total < purity` becomes
`cnt * purityDen < purityNum * total` (equivalent for `total > 0`; for
`total = 0` Python would raise before reaching the comparison).  The float
Shannon-entropy comparison `ent > 1.0` becomes
`-∑ (c/T)·log2(c/T) > 1  ↔  T^T > 2^T · ∏ c^c`  (both sides exponentiated
base 2 and multiplied by `∏ c^c`; the product ranges over positive counts). -/

def counterAdd {α : Type} [BEq α] (m : List (α × Nat)) (k : α) : List (α × Nat) :=
  if m.any (fun p => p.1 == k) then
    m.map (fun p => if p.1 == k then (p.1, p.2 + 1) else p)
  else m ++ [(k, 1)]

def counterTotal {α : Type} (m : List (α × Nat)) : Nat :=
  (m.map (fun p => p.2)).sum

/-- `Counter.most_common(1)[0]` (first maximal entry; ties keep insertion
order); `none` on an empty counter, where Python would raise `IndexError`. -/
def mostCommon1 {α : Type} : List (α × Nat) → Option (α × Nat)
  | [] => none
  | x :: rest => some (rest.foldl (fun best y => if y.2 > best.2 then y else best) x)

/-- Exact formulation of the check `ent > 1.0` on the extension histogram. -/
def entropyGtOne (exts : List (List Char × Nat)) : Bool :=
  let t := counterTotal exts
  2 ^ t * (exts.foldl (fun acc p => if 0 < p.2 then acc * p.2 ^ p.2 else acc) 1) < t ^ t

/-- The per-parent statistics record of `CohesionTracker.stats`. -/
structure CohStats where
  votes : List ((List Char × List Char) × Nat)
  exts : List (List Char × Nat)
  seen : List (List Char)
  total : Nat
deriving DecidableEq

def emptyStats : CohStats := ⟨[], [], [], 0⟩

structure CohesionTracker where
  k : Nat
  purityNum : Nat
  purityDen : Nat
  cap : Nat
  stats : List (List Char × CohStats)
  already_escalated : List (List Char)
deriving DecidableEq

/-- `self.stats.get(key)`: a plain lookup, no insertion. -/
def statsFind (m : List (List Char × CohStats)) (key : List Char) : Option CohStats :=
  (m.find? (fun p => p.1 == key)).map (fun p => p.2)

/-- `self.stats[key]` on the `defaultdict`: inserts the default record when
the key is missing, and returns the updated mapping. -/
def statsGetD (m : List (List Char × CohStats)) (key : List Char) :
    CohStats × List (List Char × CohStats) :=
  match statsFind m key with
  | some s => (s, m)
  | none => (emptyStats, m ++ [(key, emptyStats)])

def statsSet (m : List (List Char × CohStats)) (key : List Char) (s : CohStats) :
    List (List Char × CohStats) :=
  if m.any (fun p => p.1 == key) then
    m.map (fun p => if p.1 == key then (p.1, s) else p)
  else m ++ [(key, s)]

/-- `CohesionTracker.note`: idempotent per file (via `seen`); increments the
vote for the `(dest_root, subpath)` pair, the extension histogram and the
total. -/
def cohNote (t : CohesionTracker) (parent file_path dest_root subpath : List Char) :
    CohesionTracker :=
  let gd := statsGetD t.stats parent
  let s := gd.1
  if s.seen.contains file_path then { t with stats := gd.2 }
  else
    let s' : CohStats :=
      { votes := counterAdd s.votes (dest_root, subpath)
        exts := counterAdd s.exts (asciiFold (pathSuffix file_path))
        seen := s.seen ++ [file_path]
        total := s.total + 1 }
    { t with stats := statsSet gd.2 parent s' }

/-- `CohesionTracker.consensus`.  The `parent.iterdir()` scan is a filesystem
effect and is passed as `children` (`none` models the `except: pass` path).
The state is threaded through so that the absence of mutation is a theorem,
not a modelling assumption: `stats.get` is the non-inserting lookup. -/
def consensus (t : CohesionTracker) (parent : List Char)
    (children : Option (List (List Char))) :
    Option (List Char × List Char) × CohesionTracker :=
  if t.already_escalated.contains parent then (none, t)
  else
    match statsFind t.stats parent with
    | none => (none, t)
    | some s =>
      if s.total < t.k then (none, t)
      else
        match mostCommon1 s.votes with
        | none => (none, t)
        | some (dest, cnt) =>
          if cnt * t.purityDen < t.purityNum * s.total then (none, t)
          else if entropyGtOne s.exts then (none, t)
          else
            match children with
            | some names =>
              if (names.filter (fun n => !(lStarts (cl ".") n))).length > t.cap then
                (none, t)
              else (some dest, t)
            | none => (some dest, t)

/-- Condition (e) of the consensus rule: the non-hidden immediate child count
does not exceed the cap (vacuously true when the directory scan failed). -/
def childCapOk (t : CohesionTracker) (children : Option (List (List Char))) : Bool :=
  match children with
  | some names => !((names.filter (fun n => !(lStarts (cl ".") n))).length > t.cap)
  | none => true

/-- C10: `consensus` is read-only: it returns the tracker state unchanged
(`stats.get` does not insert, nothing marks the parent escalated — the
orchestrator does that after rewriting the action), so two consecutive calls
on the same state return the same result. -/
theorem consensus_pure (t : CohesionTracker) (parent : List Char)
    (children : Option (List (List Char))) :
    (consensus t parent children).2 = t ∧
      (consensus ((consensus t parent children).2) parent children).1
        = (consensus t parent children).1 := by
  have hsnd : (consensus t parent children).2 = t := by
    unfold consensus
    repeat' split
    all_goals rfl
  exact ⟨hsnd, by rw [hsnd]⟩

/-- C4: for every tracker state whose per-parent record is well-formed
(`total` is the number of recorded votes, as `note` maintains — outside this
set Python's `most_common(1)[0]` would raise), `consensus(parent)` returns a
destination pair `d` exactly when all of: `d` is the majority pair, the
parent is not already escalated, the vote total reaches the minimum, the
majority share reaches the purity threshold, the extension histogram's
Shannon entropy is at most 1 bit, and the non-hidden child count does not
exceed the cap. -/
theorem consensus_iff (t : CohesionTracker) (parent : List Char)
    (children : Option (List (List Char))) (s : CohStats)
    (hs : statsFind t.stats parent = some s)
    (_hwf : s.total = counterTotal s.votes) (d : List Char × List Char) :
    (consensus t parent children).1 = some d ↔
      ∃ cnt, mostCommon1 s.votes = some (d, cnt)
        ∧ t.already_escalated.contains parent = false
        ∧ t.k ≤ s.total
        ∧ t.purityNum * s.total ≤ cnt * t.purityDen
        ∧ entropyGtOne s.exts = false
        ∧ childCapOk t children = true := by
  constructor
  · intro h
    unfold consensus at h
    by_cases hesc : t.already_escalated.contains parent = true
    · simp only [hesc, if_true] at h
      exact absurd h (by simp)
    · have hesc' : t.already_escalated.contains parent = false := by simpa using hesc
      simp only [hesc', Bool.false_eq_true, if_false, hs] at h
      by_cases htot : s.total < t.k
      · simp only [htot, if_true] at h
        exact absurd h (by simp)
      · simp only [htot, if_false] at h
        cases hmc : mostCommon1 s.votes with
        | none =>
          simp only [hmc] at h
          exact absurd h (by simp)
        | some dc =>
          obtain ⟨d0, cnt0⟩ := dc
          simp only [hmc] at h
          by_cases hpur : cnt0 * t.purityDen < t.purityNum * s.total
          · simp only [hpur, if_true] at h
            exact absurd h (by simp)
          · simp only [hpur, if_false] at h
            by_cases hent : entropyGtOne s.exts = true
            · simp only [hent, if_true] at h
              exact absurd h (by simp)
            · have hent' : entropyGtOne s.exts = false := by simpa using hent
              simp only [hent, if_false] at h
              cases children with
              | some names =>
                by_cases hcap :
                    (names.filter (fun n => !(lStarts (cl ".") n))).length > t.cap
                · simp only [hcap, if_true] at h
                  exact absurd h (by simp)
                · simp only [hcap, if_false] at h
                  have hd0 : d0 = d := by simpa using h
                  subst hd0
                  refine ⟨cnt0, rfl, hesc', by omega, not_lt.mp hpur, hent', ?_⟩
                  simp only [childCapOk, Bool.not_eq_true']
                  exact decide_eq_false hcap
              | none =>
                have hd0 : d0 = d := by simpa using h
                subst hd0
                exact ⟨cnt0, rfl, hesc', by omega, not_lt.mp hpur, hent', rfl⟩
  · rintro ⟨cnt, hcnt, hesc, hk, hpur, hent, hcap⟩
    unfold consensus
    simp only [hesc, Bool.false_eq_true, if_false, hs, hcnt,
      show ¬ s.total < t.k from by omega, if_false,
      show ¬ cnt * t.purityDen < t.purityNum * s.total from not_lt.mpr hpur,
      hent]
    cases children with
    | some names =>
      simp only [childCapOk, Bool.not_eq_true'] at hcap
      simp [of_decide_eq_false hcap]
    | none => simp

/-- Tracker state after three distinct sibling files voted for the identical
destination pair, all with the `.jpg` extension (the `run()` construction
`CohesionTracker(k_threshold=3, purity_min=0.8, max_children_cap=500)`). -/
def cohW3 : CohesionTracker :=
  cohNote
    (cohNote
      (cohNote ⟨3, 4, 5, 500, [], []⟩
        (cl "/v/INBOX/d") (cl "/v/INBOX/d/a.jpg") (cl "Media") (cl "Images"))
      (cl "/v/INBOX/d") (cl "/v/INBOX/d/b.jpg") (cl "Media") (cl "Images"))
    (cl "/v/INBOX/d") (cl "/v/INBOX/d/c.jpg") (cl "Media") (cl "Images")

/-- Tracker state with four votes split evenly across two destinations. -/
def cohW4 : CohesionTracker :=
  cohNote
    (cohNote
      (cohNote
        (cohNote ⟨3, 4, 5, 500, [], []⟩
          (cl "/v/INBOX/d") (cl "/v/INBOX/d/a.jpg") (cl "Media") (cl "Images"))
        (cl "/v/INBOX/d") (cl "/v/INBOX/d/b.jpg") (cl "Media") (cl "Images"))
      (cl "/v/INBOX/d") (cl "/v/INBOX/d/c.jpg") (cl "Documents") (cl "Scans"))
    (cl "/v/INBOX/d") (cl "/v/INBOX/d/d.jpg") (cl "Documents") (cl "Scans")

/-- Witness for C4: with three identical votes and one shared extension the
majority pair is returned; after escalation (or with an even 2–2 split) the
result is none. -/
theorem consensus_iff_witness :
    (consensus cohW3 (cl "/v/INBOX/d")
        (some [cl "a.jpg", cl "b.jpg", cl "c.jpg"])).1
      = some (cl "Media", cl "Images")
    ∧ (consensus { cohW3 with already_escalated := [cl "/v/INBOX/d"] }
        (cl "/v/INBOX/d") (some [cl "a.jpg", cl "b.jpg", cl "c.jpg"])).1 = none
    ∧ (consensus cohW4 (cl "/v/INBOX/d") none).1 = none := by
  refine ⟨?_, by decide, by decide⟩
  exact (consensus_iff cohW3 (cl "/v/INBOX/d")
    (some [cl "a.jpg", cl "b.jpg", cl "c.jpg"])
    ⟨[((cl "Media", cl "Images"), 3)], [(cl ".jpg", 3)],
      [cl "/v/INBOX/d/a.jpg", cl "/v/INBOX/d/b.jpg", cl "/v/INBOX/d/c.jpg"], 3⟩
    (by decide) (by decide) (cl "Media", cl "Images")).mpr
    ⟨3, by decide, by decide, by decide, by decide, by decide, by decide⟩

/-! ## JSON values and `json.loads` (used by `llm_io._json_coerce`)

JSON values as Python's `json.loads` produces them.  Numbers keep their
lexeme (their numeric value is never inspected by the program); decoded
strings are code-point lists (`List Nat`) so that lone surrogates from
`\uXXXX` escapes are representable.  Objects are association lists in key
insertion order with last-wins updates, matching `dict`. -/

inductive JVal where
  | jnull
  | jbool (b : Bool)
  | jnum (lex : List Char)
  | jstr (cs : List Nat)
  | jarr (elems : List JVal)
  | jobj (fields : List (List Nat × JVal))

/-- Code points of a string literal. -/
def cp (s : String) : List Nat := s.toList.map (fun c => c.toNat)

/-- JSON whitespace (`json.decoder.WHITESPACE`). -/
def jsonWs (c : Char) : Bool := c == ' ' || c == '\t' || c == '\n' || c == '\r'

def skipWs (cs : List Char) : List Char := cs.dropWhile jsonWs

def isDigitC (c : Char) : Bool := 48 ≤ c.toNat && c.toNat ≤ 57

def hexVal (c : Char) : Option Nat :=
  if 48 ≤ c.toNat && c.toNat ≤ 57 then some (c.toNat - 48)
  else if 97 ≤ c.toNat && c.toNat ≤ 102 then some (c.toNat - 87)
  else if 65 ≤ c.toNat && c.toNat ≤ 70 then some (c.toNat - 55)
  else none

def parseHex4 : List Char → Option (Nat × List Char)
  | a :: b :: c :: d :: rest =>
    match hexVal a, hexVal b, hexVal c, hexVal d with
    | some x, some y, some z, some w => some (((x * 16 + y) * 16 + z) * 16 + w, rest)
    | _, _, _, _ => none
  | _ => none

/-- `json.decoder.py_scanstring` after the opening quote: strict mode rejects
raw control characters; `\uXXXX` escapes combine surrogate pairs and keep
lone surrogates, as CPython does. -/
def parseStrBody : Nat → List Char → List Nat → Option (List Nat × List Char)
  | 0, _, _ => none
  | fuel + 1, cs, acc =>
    match cs with
    | [] => none
    | c :: rest =>
      if c == '"' then some (acc.reverse, rest)
      else if c == '\\' then
        match rest with
        | [] => none
        | e :: rest2 =>
          if e == '"' then parseStrBody fuel rest2 (34 :: acc)
          else if e == '\\' then parseStrBody fuel rest2 (92 :: acc)
          else if e == '/' then parseStrBody fuel rest2 (47 :: acc)
          else if e == 'b' then parseStrBody fuel rest2 (8 :: acc)
          else if e == 'f' then parseStrBody fuel rest2 (12 :: acc)
          else if e == 'n' then parseStrBody fuel rest2 (10 :: acc)
          else if e == 'r' then parseStrBody fuel rest2 (13 :: acc)
          else if e == 't' then parseStrBody fuel rest2 (9 :: acc)
          else if e == 'u' then
            match parseHex4 rest2 with
            | none => none
            | some (u, rest3) =>
              if 0xd800 ≤ u && u ≤ 0xdbff then
                match rest3 with
                | c1 :: c2 :: rest4 =>
                  if c1 == '\\' && c2 == 'u' then
                    match parseHex4 rest4 with
                    | none => none
                    | some (u2, rest5) =>
                      if 0xdc00 ≤ u2 && u2 ≤ 0xdfff then
                        parseStrBody fuel rest5
                          ((0x10000 + (u - 0xd800) * 0x400 + (u2 - 0xdc00)) :: acc)
                      else parseStrBody fuel rest3 (u :: acc)
                  else parseStrBody fuel rest3 (u :: acc)
                | _ => parseStrBody fuel rest3 (u :: acc)
              else parseStrBody fuel rest3 (u :: acc)
          else none
      else if c.toNat < 32 then none
      else parseStrBody fuel rest (c.toNat :: acc)

/-- Greedy span of decimal digits. -/
def digitSpan (cs : List Char) : List Char × List Char :=
  (cs.takeWhile isDigitC, cs.dropWhile isDigitC)

/-- The integer part `(0|[1-9]\d*)` of the scanner's `NUMBER_RE`. -/
def parseIntPart : List Char → Option (List Char × List Char)
  | [] => none
  | c :: rest =>
    if c == '0' then some ([c], rest)
    else if isDigitC c then
      some (c :: (digitSpan rest).1, (digitSpan rest).2)
    else none

/-- The optional fraction group `(\.\d+)?`. -/
def parseFracPart (cs : List Char) : List Char × List Char :=
  match cs with
  | c :: d :: rest =>
    if c == '.' && isDigitC d then
      (c :: d :: (digitSpan rest).1, (digitSpan rest).2)
    else ([], cs)
  | _ => ([], cs)

/-- The optional exponent group `([eE][-+]?\d+)?`. -/
def parseExpPart (cs : List Char) : List Char × List Char :=
  match cs with
  | c :: rest =>
    if c == 'e' || c == 'E' then
      match rest with
      | d :: rest2 =>
        if isDigitC d then (c :: d :: (digitSpan rest2).1, (digitSpan rest2).2)
        else if (d == '+' || d == '-') then
          match rest2 with
          | e :: rest3 =>
            if isDigitC e then (c :: d :: e :: (digitSpan rest3).1, (digitSpan rest3).2)
            else ([], cs)
          | [] => ([], cs)
        else ([], cs)
      | [] => ([], cs)
    else ([], cs)
  | [] => ([], cs)

/-- `json.scanner.NUMBER_RE` matched at the start of the input. -/
def parseNumberLex (cs : List Char) : Option (List Char × List Char) :=
  match cs with
  | c :: rest =>
    let pair := if c == '-' then ([c], rest) else (([] : List Char), cs)
    match parseIntPart pair.2 with
    | none => none
    | some (ip, cs2) =>
      let f := parseFracPart cs2
      let e := parseExpPart f.2
      some (pair.1 ++ ip ++ f.1 ++ e.1, e.2)
  | [] => none

/-- Parser modes: a value, the tail of an array, or the tail of an object
(the accumulators carry what has been parsed so far). -/
inductive PM where
  | pv
  | parr (acc : List JVal)
  | pobj (acc : List (List Nat × JVal))

/-- `dict` insertion: last-wins update at the first occurrence of the key,
append otherwise. -/
def objInsert (kvs : List (List Nat × JVal)) (k : List Nat) (v : JVal) :
    List (List Nat × JVal) :=
  if kvs.any (fun p => p.1 == k) then
    kvs.map (fun p => if p.1 == k then (p.1, v) else p)
  else kvs ++ [(k, v)]

/-- The recursive scanner of `json.loads` (`py_make_scanner`): strings,
objects, arrays, the three keyword literals, numbers, and the
`NaN`/`Infinity`/`-Infinity` constants, with whitespace skipping as in
`JSONObject`/`JSONArray`.  Fuel-indexed; `length + 1` fuel suffices because
every recursive call follows the consumption of at least one character. -/
def parseF : Nat → PM → List Char → Option (JVal × List Char)
  | 0, _, _ => none
  | fuel + 1, PM.pv, cs0 =>
    let cs := skipWs cs0
    match cs with
    | [] => none
    | c :: rest =>
      if c == '"' then
        match parseStrBody (rest.length + 1) rest [] with
        | some (s, r) => some (JVal.jstr s, r)
        | none => none
      else if c == '\x7b' then
        match skipWs rest with
        | d :: rest1 =>
          if d == '\x7d' then some (JVal.jobj [], rest1)
          else parseF fuel (PM.pobj []) (skipWs rest)
        | [] => none
      else if c == '[' then
        match skipWs rest with
        | d :: rest1 =>
          if d == ']' then some (JVal.jarr [], rest1)
          else parseF fuel (PM.parr []) (skipWs rest)
        | [] => none
      else if lStarts (cl "null") cs then some (JVal.jnull, cs.drop 4)
      else if lStarts (cl "true") cs then some (JVal.jbool true, cs.drop 4)
      else if lStarts (cl "false") cs then some (JVal.jbool false, cs.drop 5)
      else
        match parseNumberLex cs with
        | some (lex, r) => some (JVal.jnum lex, r)
        | none =>
          if lStarts (cl "NaN") cs then some (JVal.jnum (cl "NaN"), cs.drop 3)
          else if lStarts (cl "Infinity") cs then some (JVal.jnum (cl "Infinity"), cs.drop 8)
          else if lStarts (cl "-Infinity") cs then some (JVal.jnum (cl "-Infinity"), cs.drop 9)
          else none
  | fuel + 1, PM.parr acc, cs =>
    match parseF fuel PM.pv cs with
    | none => none
    | some (v, r) =>
      match skipWs r with
      | c :: r2 =>
        if c == ']' then some (JVal.jarr (v :: acc).reverse, r2)
        else if c == ',' then parseF fuel (PM.parr (v :: acc)) r2
        else none
      | [] => none
  | fuel + 1, PM.pobj acc, cs =>
    match skipWs cs with
    | c :: rest =>
      if c == '"' then
        match parseStrBody (rest.length + 1) rest [] with
        | none => none
        | some (key, r) =>
          match skipWs r with
          | d :: r2 =>
            if d == ':' then
              match parseF fuel PM.pv r2 with
              | none => none
              | some (v, rv) =>
                match skipWs rv with
                | e :: r3 =>
                  if e == '\x7d' then some (JVal.jobj (objInsert acc key v), r3)
                  else if e == ',' then parseF fuel (PM.pobj (objInsert acc key v)) r3
                  else none
                | [] => none
            else none
          | [] => none
      else none
    | [] => none

/-- `json.loads`: scan one value, then require only whitespace to remain
("Extra data" otherwise). -/
def jsonLoads (s : List Char) : Option JVal :=
  match parseF (s.length + 1) PM.pv s with
  | some (v, rest) => if (skipWs rest).isEmpty then some v else none
  | none => none

/-! ## `llm_io._json_coerce` (claims C2 and C7) -/

/-- `re.sub(r'[\x00-\x08\x0b\x0c\x0e-\x1f]', '', s)`. -/
def cleanCtrl (cs : List Char) : List Char :=
  cs.filter (fun c =>
    !(c.toNat ≤ 8 || c.toNat == 11 || c.toNat == 12 ||
      (14 ≤ c.toNat && c.toNat ≤ 31)))

/-- The text the coercer works on: `s.strip()` then the control-char strip. -/
def coerceTxt (s : List Char) : List Char := cleanCtrl (pyStrip s)

def isObjB : JVal → Bool
  | JVal.jobj _ => true
  | _ => false

/-- `dict.get` on the modelled object (keys are unique by construction). -/
def objGet (kvs : List (List Nat × JVal)) (k : List Nat) : Option JVal :=
  (kvs.find? (fun p => p.1 == k)).map (fun p => p.2)

/-- The coercer's error results: a dict with a list-typed empty `actions`
field and an `error` tag. -/
def errDict (msg : String) : JVal :=
  JVal.jobj [(cp "actions", JVal.jarr []), (cp "error", JVal.jstr (cp msg))]

/-- The returned dict has an `actions` key holding a list. -/
def hasListActions : JVal → Bool
  | JVal.jobj kvs =>
    match objGet kvs (cp "actions") with
    | some (JVal.jarr _) => true
    | _ => false
  | _ => false

/-- The returned dict carries an `error` tag. -/
def hasErrField : JVal → Bool
  | JVal.jobj kvs => (objGet kvs (cp "error")).isSome
  | _ => false

/-- Substring test (`'needle' in hay`). -/
def hasSubL (needle : List Char) : List Char → Bool
  | [] => needle.isEmpty
  | c :: rest => lStarts needle (c :: rest) || hasSubL needle rest

/-- `'"actions"' in frag` — note the quotes are part of the needle. -/
def hasActionsLit (frag : List Char) : Bool := hasSubL (cl "\"actions\"") frag

/-- The `while` loop of `_first_balanced_with_actions`: string/escape state,
top-level brace depth, and the characters of the currently open block (in
reverse).  Returns the first balanced top-level block containing the literal
`"actions"`; blocks failing the substring test are skipped. -/
def fbScan : List Char → Bool → Bool → Nat → List Char → Option (List Char)
  | [], _, _, _, _ => none
  | c :: rest, inStr, esc, depth, acc =>
    if inStr then
      if esc then fbScan rest true false depth (if 0 < depth then c :: acc else acc)
      else if c == '\\' then fbScan rest true true depth (if 0 < depth then c :: acc else acc)
      else if c == '"' then fbScan rest false false depth (if 0 < depth then c :: acc else acc)
      else fbScan rest true false depth (if 0 < depth then c :: acc else acc)
    else if c == '"' then fbScan rest true false depth (if 0 < depth then c :: acc else acc)
    else if c == '\x7b' then
      if depth == 0 then fbScan rest false false 1 [c]
      else fbScan rest false false (depth + 1) (c :: acc)
    else if c == '\x7d' then
      if depth == 0 then fbScan rest false false 0 acc
      else if depth == 1 then
        (if hasActionsLit ((c :: acc).reverse) then some ((c :: acc).reverse)
         else fbScan rest false false 0 [])
      else fbScan rest false false (depth - 1) (c :: acc)
    else fbScan rest false false depth (if 0 < depth then c :: acc else acc)

def firstBalancedWithActions (t : List Char) : Option (List Char) :=
  fbScan t false false 0 []

/-- The span after the first matched character, through the first later
occurrence of `t` (inclusive); `none` when `t` never occurs. -/
def takeThrough (t : Char) : List Char → Option (List Char)
  | [] => none
  | c :: rest =>
    if c == t then some [c] else (takeThrough t rest).map (fun l => c :: l)

/-- `re.search(r'\{.*?\}', txt, re.S)`: the leftmost-then-shortest match is
the span from the first opening brace through the first closing brace after
it. -/
def firstBraceSpan (cs : List Char) : Option (List Char) :=
  match cs.dropWhile (fun c => !(c == '\x7b')) with
  | [] => none
  | c :: rest => (takeThrough '\x7d' rest).map (fun l => c :: l)

/-- The dict-or-error step shared by all three attempts of `_json_coerce`:
a successful parse is returned when it is a dict and replaced by the
`not_dict_root` error dict otherwise; a failed parse falls through to the
next strategy `fb`. -/
def objOrErr (o : Option JVal) (fb : JVal) : JVal :=
  match o with
  | some v => if isObjB v then v else errDict "not_dict_root"
  | none => fb

/-- Step 3 of `_json_coerce`: the regex fallback. -/
def regexFallback (txt : List Char) : JVal :=
  match firstBraceSpan txt with
  | some frag => objOrErr (jsonLoads frag) (errDict "parse_coerce_fail")
  | none => errDict "no_braces"

/-- `llm_io._json_coerce` (the non-`str` input branch is outside this model:
inputs are strings).  Strict parse, then the balanced-block scan, then the
regex fallback, then the error dict. -/
def json_coerce (s : List Char) : JVal :=
  objOrErr (jsonLoads (coerceTxt s))
    (match firstBalancedWithActions (coerceTxt s) with
     | some frag => objOrErr (jsonLoads frag) (regexFallback (coerceTxt s))
     | none => regexFallback (coerceTxt s))

theorem objOrErr_props (src : List Char) (fb : JVal)
    (hfb : isObjB fb = true ∧
      (hasListActions fb = true ∨ ∃ f, jsonLoads f = some fb)) :
    isObjB (objOrErr (jsonLoads src) fb) = true ∧
      (hasListActions (objOrErr (jsonLoads src) fb) = true
        ∨ ∃ f, jsonLoads f = some (objOrErr (jsonLoads src) fb)) := by
  cases ho : jsonLoads src with
  | some v =>
    by_cases hv : isObjB v = true
    · have he : objOrErr (some v) fb = v := by simp [objOrErr, hv]
      rw [he]
      exact ⟨hv, Or.inr ⟨src, ho⟩⟩
    · have he : objOrErr (some v) fb = errDict "not_dict_root" := by
        simp [objOrErr, hv]
      rw [he]
      exact ⟨rfl, Or.inl rfl⟩
  | none => exact hfb

theorem regexFallback_ok (txt : List Char) :
    isObjB (regexFallback txt) = true ∧
      (hasListActions (regexFallback txt) = true ∨
        ∃ f, jsonLoads f = some (regexFallback txt)) := by
  unfold regexFallback
  cases h4 : firstBraceSpan txt with
  | some frag => exact objOrErr_props frag _ ⟨rfl, Or.inl rfl⟩
  | none => exact ⟨rfl, Or.inl rfl⟩

/-- C2 (amended): for every input string the coercer is total and returns a
dict; the dict either has a list-typed `actions` field (all error paths do)
or is exactly the parsed value of some JSON fragment, returned as-is — in
which case nothing guarantees an `actions` list (see the counterexample). -/
theorem json_coerce_total_dict (s : List Char) :
    isObjB (json_coerce s) = true ∧
      (hasListActions (json_coerce s) = true ∨
        ∃ f, jsonLoads f = some (json_coerce s)) := by
  unfold json_coerce
  apply objOrErr_props (coerceTxt s)
  cases h2 : firstBalancedWithActions (coerceTxt s) with
  | some frag => exact objOrErr_props frag _ (regexFallback_ok (coerceTxt s))
  | none => exact regexFallback_ok (coerceTxt s)

/-- Counterexample for C2 as stated: on input `{}` the strict parse succeeds
and the parsed dict is returned as-is, with no `actions` field at all. -/
theorem json_coerce_actions_field_cex :
    json_coerce (cl "\x7b\x7d") = JVal.jobj [] ∧
      hasListActions (json_coerce (cl "\x7b\x7d")) = false :=
  ⟨rfl, rfl⟩

theorem fbScan_some_hasActions {t : List Char} {inStr esc : Bool} {depth : Nat}
    {acc frag : List Char} (h : fbScan t inStr esc depth acc = some frag) :
    hasActionsLit frag = true := by
  induction t generalizing inStr esc depth acc with
  | nil => simp [fbScan] at h
  | cons c rest ih =>
    unfold fbScan at h
    split_ifs at h <;>
      first
        | exact ih h
        | (injection h with h'; subst h'; assumption)

/-- C7 (amended): when the direct parse fails and the scanner finds a first
balanced top-level block containing the literal `"actions"`, the coercer
attempts to parse only that block: it returns its parse when it is an
object, and otherwise falls straight back to the regex span — it never tries
a later balanced block (see the counterexample). -/
theorem json_coerce_balanced_scan (s frag : List Char)
    (h1 : jsonLoads (coerceTxt s) = none)
    (h2 : firstBalancedWithActions (coerceTxt s) = some frag) :
    hasActionsLit frag = true
    ∧ (∀ v, jsonLoads frag = some v → isObjB v = true → json_coerce s = v)
    ∧ (jsonLoads frag = none → json_coerce s = regexFallback (coerceTxt s)) := by
  refine ⟨fbScan_some_hasActions h2, ?_, ?_⟩
  · intro v h3 hv
    unfold json_coerce
    simp only [h1, h2, h3, objOrErr, hv, if_true]
  · intro h3
    unfold json_coerce
    simp only [h1, h2, h3, objOrErr]

/-- Witness for C7 at a concrete input: prose around one balanced
actions-block. -/
theorem json_coerce_balanced_scan_witness :
    hasActionsLit (cl "\x7b\"actions\":[]\x7d") = true
    ∧ json_coerce (cl "noise \x7b\"actions\":[]\x7d tail")
        = JVal.jobj [(cp "actions", JVal.jarr [])] := by
  have h := json_coerce_balanced_scan (cl "noise \x7b\"actions\":[]\x7d tail")
    (cl "\x7b\"actions\":[]\x7d") rfl rfl
  exact ⟨h.1, h.2.1 _ rfl rfl⟩

/-- Counterexample for C7 as stated: two top-level balanced blocks both
containing `"actions"`; the first fails to parse, the second parses to an
object, yet the coercer returns the `parse_coerce_fail` error dict (carrying
an `error` tag) instead of the second block's object. -/
theorem json_coerce_first_block_cex :
    jsonLoads (cl "\x7b\"actions\":[]\x7d")
        = some (JVal.jobj [(cp "actions", JVal.jarr [])])
    ∧ hasErrField (JVal.jobj [(cp "actions", JVal.jarr [])]) = false
    ∧ json_coerce (cl "\x7b\"actions\" nope\x7d\x7b\"actions\":[]\x7d")
        = errDict "parse_coerce_fail"
    ∧ hasErrField (json_coerce (cl "\x7b\"actions\" nope\x7d\x7b\"actions\":[]\x7d"))
        = true :=
  ⟨rfl, rfl, rfl, rfl⟩

/-! ## tools.tool_plan_move: destination-path computation (claim C1)

The vault layout (`config.py`): the three destination roots are
`<vault>/Documents`, `<vault>/Media`, `<vault>/Projects`; paths are modelled
as component lists under an arbitrary vault prefix.  Filesystem effects
(`mkdir`, the `rmtree` branch, the move itself) are outside the model; the
`try`/`except` wrapper that turns the unknown-root `ValueError` into a
structured error is `none`. -/

/-- The replace/replace/strip pipeline of `tools._sanitize_segment`
(on POSIX `os.sep` is `/`). -/
def sanitizeSegCore (seg : List Char) : List Char :=
  pyStrip ((seg.map (fun c => if c == '/' then '_' else c)).filter
    (fun c => !(c == '\x00')))

/-- `tools._sanitize_segment`. -/
def sanitize_segment (seg : List Char) : List Char :=
  if sanitizeSegCore seg = [] || sanitizeSegCore seg = cl "." ||
      sanitizeSegCore seg = cl ".." then cl "_"
  else sanitizeSegCore seg

/-- `[part for part in subpath.split("/") if part]`. -/
def subpathParts (subpath : List Char) : List (List Char) :=
  (splitOn '/' subpath).filter (fun p => !(p == []))

/-- `tools._ROOT_MAP` keyed by the exact canonical label, giving the name of
the root directory under the vault. -/
def rootMapLookup (name : List Char) : Option (List Char) :=
  if name == cl "Documents" then some (cl "Documents")
  else if name == cl "Media" then some (cl "Media")
  else if name == cl "Projects" then some (cl "Projects")
  else none

/-- `dest_dir = base.joinpath(*safe_parts)` as components under the vault. -/
def tool_plan_move_dest_dir (vault : List (List Char))
    (destination_root subpath : List Char) : Option (List (List Char)) :=
  (rootMapLookup destination_root).map
    (fun name => vault ++ [name] ++ (subpathParts subpath).map sanitize_segment)

/-- `dest_path = dest_dir / safe_ascii(filename)`. -/
def tool_plan_move_dest (uni : Char → List Char) (vault : List (List Char))
    (destination_root subpath filename : List Char) : Option (List (List Char)) :=
  (tool_plan_move_dest_dir vault destination_root subpath).map
    (fun d => d ++ [safe_ascii uni filename])

/-- A path segment that can neither traverse upward nor inject separators. -/
def goodSeg (seg : List Char) : Bool :=
  !(seg == []) && !(seg == cl ".") && !(seg == cl "..") &&
    seg.all (fun c => !(c == '/'))

/-- POSIX lexical resolution of components against a base directory:
`.` stays, `..` pops, a normal segment descends. -/
def applyComps (base : List (List Char)) : List (List Char) → List (List Char)
  | [] => base
  | seg :: rest =>
    if seg == cl "." then applyComps base rest
    else if seg == cl ".." then applyComps base.dropLast rest
    else applyComps (base ++ [seg]) rest

/-- Component-list prefix test. -/
def compStarts : List (List Char) → List (List Char) → Bool
  | [], _ => true
  | _ :: _, [] => false
  | p :: ps, a :: as_ => p == a && compStarts ps as_

/-- Every sanitized subpath segment is traversal-free. -/
theorem sanitize_segment_good (seg : List Char) :
    goodSeg (sanitize_segment seg) = true := by
  unfold sanitize_segment
  split
  · decide
  · next hne =>
    simp only [Bool.or_eq_true, decide_eq_true_eq, not_or] at hne
    obtain ⟨⟨h1, h2⟩, h3⟩ := hne
    simp only [goodSeg, Bool.and_eq_true, Bool.not_eq_true', beq_eq_false_iff_ne,
      ne_eq, List.all_eq_true]
    refine ⟨⟨⟨h1, h2⟩, h3⟩, ?_⟩
    intro c hmem
    have hmem3 := List.mem_of_mem_filter (mem_pyStrip hmem)
    obtain ⟨c0, _, hc0⟩ := List.mem_map.mp hmem3
    by_cases hc : c0 == '/'
    · rw [if_pos hc] at hc0
      subst hc0
      decide
    · rw [if_neg hc] at hc0
      subst hc0
      simpa using hc

/-- Appending traversal-free components onto a base never leaves the base:
the resolved path is exactly `base ++ tail`. -/
theorem applyComps_good (base : List (List Char)) (tail : List (List Char))
    (h : ∀ seg ∈ tail, goodSeg seg = true) :
    applyComps base tail = base ++ tail := by
  induction tail generalizing base with
  | nil => simp [applyComps]
  | cons seg rest ih =>
    have hs := h seg (List.mem_cons_self seg rest)
    simp only [goodSeg, Bool.and_eq_true, Bool.not_eq_true', beq_eq_false_iff_ne,
      ne_eq, List.all_eq_true] at hs
    unfold applyComps
    rw [if_neg (by simpa using hs.1.1.2), if_neg (by simpa using hs.1.2)]
    rw [ih (base ++ [seg]) (fun s hsm => h s (List.mem_cons_of_mem seg hsm))]
    simp

/-- C1 (evaluation at the failing input): `safe_ascii` leaves `..` unchanged
(all its characters are in the allowed class), so
`tool_plan_move(src, "Documents", "", "..")` computes the destination
`<vault>/Documents/..`, which resolves to the vault root — the destination
escapes the canonical destination root, contradicting the claim.  (Subpath
segments, by contrast, really are neutralized: see `sanitize_segment_good`
and `applyComps_good`.  When `src` is a directory, the code would even
`rmtree` this escaped destination, i.e. the whole vault.) -/
theorem tool_plan_move_dotdot_escape :
    safe_ascii (fun c => [c]) (cl "..") = cl ".."
    ∧ tool_plan_move_dest (fun c => [c]) [cl "home", cl "_Vault"]
        (cl "Documents") [] (cl "..")
        = some [cl "home", cl "_Vault", cl "Documents", cl ".."]
    ∧ applyComps [] [cl "home", cl "_Vault", cl "Documents", cl ".."]
        = [cl "home", cl "_Vault"]
    ∧ compStarts [cl "home", cl "_Vault", cl "Documents"]
        (applyComps [] [cl "home", cl "_Vault", cl "Documents", cl ".."]) = false := by
  refine ⟨by decide, by decide, by decide, by decide⟩

/-! ## actions.py: root aliasing and the plan_move normalizer (claims C3, C5)

`config.allowed_destinations()` is the constant pattern list; `DOCS`, `MEDIA`
and `PROJ` have the basenames `Documents`, `Media`, `Projects`.  Python
`casefold` is modelled as ASCII lower-casing (the labels compared here are
ASCII).  The `INBOX` root is a parameter (a parsed absolute path). -/

def allowed_destinations : List (List Char) :=
  [cl "Documents/*", cl "Media/*", cl "Projects"]

/-- `actions._norm_key`: `str(value or "").strip().strip("/").casefold()`. -/
def normKeyL (v : List Char) : List Char := asciiFold (stripAll '/' (pyStrip v))

/-- Python string ordering (code-point lexicographic). -/
def lexLe : List Char → List Char → Bool
  | [], _ => true
  | _ :: _, [] => false
  | a :: as_, b :: bs =>
    if a.toNat < b.toNat then true
    else if b.toNat < a.toNat then false
    else lexLe as_ bs

def insertLe (x : List Char) : List (List Char) → List (List Char)
  | [] => [x]
  | y :: ys => if lexLe x y then x :: y :: ys else y :: insertLe x ys

/-- `sorted` on a list of distinct strings. -/
def sortLe : List (List Char) → List (List Char)
  | [] => []
  | x :: xs => insertLe x (sortLe xs)

/-- `dict` assignment with last-wins update at the first position of the key. -/
def dictSet (m : List (List Char × List Char)) (k v : List Char) :
    List (List Char × List Char) :=
  if m.any (fun p => p.1 == k) then
    m.map (fun p => if p.1 == k then (p.1, v) else p)
  else m ++ [(k, v)]

def aliasGet (m : List (List Char × List Char)) (k : List Char) :
    Option (List Char) :=
  (m.find? (fun p => p.1 == k)).map (fun p => p.2)

/-- `actions.allowed_root_names`: heads of the configured patterns plus the
basenames of the three roots, canonicalized, deduplicated and sorted. -/
def allowed_root_names : List (List Char) :=
  sortLe
    (((((allowed_destinations.map (fun p => pyStrip (splitFirst '/' p).1)).filter
        (fun h => !(h == [])))
      ++ [cl "Documents", cl "Media", cl "Projects"]).map
      (fun r =>
        match aliasGet
            [(cl "documents", cl "Documents"), (cl "media", cl "Media"),
              (cl "projects", cl "Projects")] (normKeyL r) with
        | some lbl => lbl
        | none => stripAll '/' (pyStrip r))).dedup)

/-- `actions.root_alias_map`: normalized label → canonical root name, with the
three default English labels always layered on top. -/
def root_alias_map : List (List Char × List Char) :=
  dictSet
    (dictSet
      (dictSet
        (allowed_root_names.foldl (fun m lbl => dictSet m (normKeyL lbl) lbl) [])
        (normKeyL (cl "Documents")) (cl "Documents"))
      (normKeyL (cl "Media")) (cl "Media"))
    (normKeyL (cl "Projects")) (cl "Projects")

/-- `actions._auto_split_root`. -/
def auto_split_root (raw : List Char) (amap : List (List Char × List Char)) :
    List Char × List Char × Bool :=
  match splitFirst '/' raw with
  | (_, none) => (raw, [], false)
  | (base, some tail) =>
    match aliasGet amap (normKeyL (pyStrip base)) with
    | some c => (c, stripAll '/' (pyStrip tail), true)
    | none => (raw, [], false)

/-- The normalized `plan_move` dict built by `normalize_plan_move`. -/
structure PlanMove where
  src : List Char
  destination_root : List Char
  subpath : List Char
  filename : List Char
deriving DecidableEq

/-- A raw model-proposed action: a dict with these optional string fields
(non-dict list entries are modelled as `none` at the `sanitize_actions`
level; non-string field values are outside the model). -/
structure RawAction where
  tool : Option (List Char)
  path : Option (List Char)
  src : Option (List Char)
  destination_root : Option (List Char)
  subpath : Option (List Char)
  filename : Option (List Char)
deriving DecidableEq

/-- Python `x.get(k) or default` (`None` and the empty string are falsy). -/
def orDefault (o : Option (List Char)) (d : List Char) : List Char :=
  match o with
  | some v => if v = [] then d else v
  | none => d

/-- `"/".join([part for part in parts if part])`. -/
def joinNonempty (parts : List (List Char)) : List Char :=
  joinWith '/' (parts.filter (fun p => !(p == [])))

/-- Python `x or "Unsorted"`. -/
def orUnsorted (t : List Char) : List Char :=
  if t = [] then cl "Unsorted" else t

/-- `str(rel.parent).strip("/") or "Unsorted"` guarded by
`Path(src).relative_to(INBOX)` (the `except` branch yields `Unsorted`). -/
def deriveSubpath (inbox : PPath) (src : List Char) : List Char :=
  if (parsePPath src).root == inbox.root &&
      compStarts inbox.comps (parsePPath src).comps then
    orUnsorted (stripAll '/'
      (ppathStr ⟨0, ((parsePPath src).comps.drop inbox.comps.length).dropLast⟩))
  else cl "Unsorted"

/-! The successive locals of `normalize_plan_move`, one definition per
assignment of the Python function, in source order. -/

/-- `src = (action.get("src") or current_path).strip()`. -/
def npSrc (action : RawAction) (cp0 : List Char) : List Char :=
  pyStrip (orDefault action.src cp0)

/-- `raw_root = (action.get("destination_root") or "").strip()`. -/
def npRawRoot (action : RawAction) : List Char :=
  pyStrip (orDefault action.destination_root [])

/-- `subpath = (action.get("subpath") or "").strip().strip("/")`. -/
def npSub0 (action : RawAction) : List Char :=
  stripAll '/' (pyStrip (orDefault action.subpath []))

/-- `root = alias_map.get(root_key, raw_root.strip().strip("/"))`. -/
def npRoot0 (action : RawAction) : List Char :=
  match aliasGet root_alias_map (normKeyL (npRawRoot action)) with
  | some lbl => lbl
  | none => stripAll '/' (pyStrip (npRawRoot action))

/-- `root, extra, changed = _auto_split_root(root, alias_map)`. -/
def npSplit (action : RawAction) : List Char × List Char × Bool :=
  auto_split_root (npRoot0 action) root_alias_map

/-- The note list (`auto_split_root_subpath` when the root was split). -/
def npNotes (action : RawAction) : List (List Char) :=
  if (npSplit action).2.2 then [cl "auto_split_root_subpath"] else []

/-- `subpath = "/".join([part for part in (extra, subpath) if part])` when
the root was split, otherwise unchanged. -/
def npSub1 (action : RawAction) : List Char :=
  if (npSplit action).2.2 then joinNonempty [(npSplit action).2.1, npSub0 action]
  else npSub0 action

/-- The derivation block: `if not subpath: ...relative_to(INBOX)...`. -/
def npSub2 (inbox : PPath) (action : RawAction) (cp0 : List Char) : List Char :=
  if npSub1 action = [] then deriveSubpath inbox (npSrc action cp0)
  else npSub1 action

/-- `filename = (action.get("filename") or pathlib.Path(src).name).strip()`. -/
def npFn0 (action : RawAction) (cp0 : List Char) : List Char :=
  pyStrip (orDefault action.filename (pathNameStr (npSrc action cp0)))

/-- The filename default chain followed by `safe_ascii`. -/
def npFilename (uni : Char → List Char) (action : RawAction) (cp0 : List Char) :
    List Char :=
  safe_ascii uni
    (if npFn0 action cp0 = [] then
      (if pathNameStr (npSrc action cp0) = [] then cl "unnamed"
       else pathNameStr (npSrc action cp0))
     else npFn0 action cp0)

/-- `actions.normalize_plan_move`: `none` models the empty-dict rejection
(the `invalid_root` path; for the concrete allowed labels the returned dict's
`src` and `destination_root` are never falsy, so the Python truthiness check
coincides with the `some` case). -/
def normalize_plan_move (uni : Char → List Char) (inbox : PPath)
    (action : RawAction) (cp0 : List Char) (labels : List (List Char)) :
    Option PlanMove × List (List Char) :=
  if (labels.map normKeyL).contains (normKeyL (npSplit action).1) then
    (some ⟨fs_norm_path (npSrc action cp0), (npSplit action).1,
      npSub2 inbox action cp0, npFilename uni action cp0⟩, npNotes action)
  else (none, npNotes action ++ [cl "invalid_root"])

/-- The sanitizer's output action set. -/
inductive SaneAction where
  | listDirA (path : List Char)
  | inspectFileA (path : List Char)
  | planMoveA (pm : PlanMove)
deriving DecidableEq

/-- The reason tags of the sanitizer's structured log callback (payloads
elided: only the tags and the note lists matter to the claims). -/
inductive LogEv where
  | dropBadNotDict
  | dropBadTool
  | dropEmptySubpath
  | normalizeNotes (notes : List (List Char))
  | invalidPlanMove (notes : List (List Char))
deriving DecidableEq

/-- The `plan_move` arm of the sanitizer loop, applied to
`normalize_plan_move`'s result. -/
def sanitizePlanBranch (acc : List SaneAction × List LogEv)
    (res : Option PlanMove × List (List Char)) : List SaneAction × List LogEv :=
  match res with
  | (some n, notes) =>
    if n.subpath = [] then (acc.1, acc.2 ++ [LogEv.dropEmptySubpath])
    else (acc.1 ++ [SaneAction.planMoveA n],
      acc.2 ++ (if notes.isEmpty then [] else [LogEv.normalizeNotes notes]))
  | (none, notes) => (acc.1, acc.2 ++ [LogEv.invalidPlanMove notes])

/-- One iteration of the `for raw_action in actions` loop. -/
def sanitizeStep (uni : Char → List Char) (inbox : PPath) (cp0 : List Char)
    (labels : List (List Char)) (acc : List SaneAction × List LogEv)
    (rawO : Option RawAction) : List SaneAction × List LogEv :=
  match rawO with
  | none => (acc.1, acc.2 ++ [LogEv.dropBadNotDict])
  | some raw =>
    if !(pyStrip (orDefault raw.tool []) == cl "list_dir"
        || pyStrip (orDefault raw.tool []) == cl "inspect_file"
        || pyStrip (orDefault raw.tool []) == cl "plan_move") then
      (acc.1, acc.2 ++ [LogEv.dropBadTool])
    else if pyStrip (orDefault raw.tool []) == cl "list_dir"
        || pyStrip (orDefault raw.tool []) == cl "inspect_file" then
      (acc.1 ++ [if pyStrip (orDefault raw.tool []) == cl "list_dir" then
          SaneAction.listDirA (orDefault raw.path cp0)
        else SaneAction.inspectFileA (orDefault raw.path cp0)], acc.2)
    else sanitizePlanBranch acc (normalize_plan_move uni inbox raw cp0 labels)

/-- `actions.sanitize_actions` (`current_path` normalized once on entry; the
log callback is modelled as the returned event list). -/
def sanitize_actions (uni : Char → List Char) (inbox : PPath)
    (actions : List (Option RawAction)) (current_path : List Char)
    (labels : List (List Char)) : List SaneAction × List LogEv :=
  actions.foldl (sanitizeStep uni inbox (fs_norm_path current_path) labels) ([], [])

/-! Lemmas towards claim C3: a normalized `plan_move` never carries an empty
subpath, and its subpath contributes at least one directory segment at
`tool_plan_move`. -/

/-- The first character of a string, with `[]` vacuously fine. -/
def noLeadSlash (s : List Char) : Bool :=
  match s with
  | [] => true
  | c :: _ => !(c == '/')

theorem dropTrail_dropWhile_head {p : Char → Bool} {l : List Char} {c : Char}
    (h : (dropTrail p (l.dropWhile p)).head? = some c) : p c = false := by
  obtain ⟨tl, htl⟩ := dropTrail_isPre p (l.dropWhile p)
  have hne : dropTrail p (l.dropWhile p) ≠ [] := by
    intro hc
    rw [hc] at h
    simp at h
  have h1 : (l.dropWhile p).head? = some c := by
    rw [← htl]
    cases hd : dropTrail p (l.dropWhile p) with
    | nil => exact absurd hd hne
    | cons e r2 =>
      rw [hd] at h
      simp only [List.head?_cons, Option.some.injEq] at h
      subst h
      simp
  exact head?_dropWhile_not h1

theorem stripAll_noLead (l : List Char) : noLeadSlash (stripAll '/' l) = true := by
  cases hs : stripAll '/' l with
  | nil => rfl
  | cons c rest =>
    have hc : (c == '/') = false := by
      apply dropTrail_dropWhile_head (p := fun c => c == '/') (l := l)
      rw [show dropTrail (fun c => c == '/') (l.dropWhile (fun c => c == '/'))
        = stripAll '/' l from rfl, hs]
      simp
    simp [noLeadSlash, hc]

theorem joinNonempty_pair (a b : List Char) :
    joinNonempty [a, b] =
      (if a = [] then b else if b = [] then a else a ++ '/' :: b) := by
  by_cases ha : a = [] <;> by_cases hb : b = [] <;>
    simp [joinNonempty, joinWith, ha, hb]

theorem auto_split_root_extra_noLead (r : List Char)
    (m : List (List Char × List Char)) :
    noLeadSlash (auto_split_root r m).2.1 = true := by
  rcases hsp : splitFirst '/' r with ⟨base, rest⟩
  cases rest with
  | none => simp [auto_split_root, hsp, noLeadSlash]
  | some tail =>
    simp only [auto_split_root, hsp]
    cases hag : aliasGet m (normKeyL (pyStrip base)) with
    | some c => exact stripAll_noLead (pyStrip tail)
    | none => rfl

set_option maxHeartbeats 1000000 in
theorem npSub1_noLead (action : RawAction) : noLeadSlash (npSub1 action) = true := by
  unfold npSub1
  split
  · rw [joinNonempty_pair]
    split
    · exact stripAll_noLead _
    · split
      · exact auto_split_root_extra_noLead (npRoot0 action) root_alias_map
      · have hx : noLeadSlash (npSplit action).2.1 = true :=
          auto_split_root_extra_noLead (npRoot0 action) root_alias_map
        cases hcase : (npSplit action).2.1 with
        | nil =>
          next hne _ => exact absurd hcase hne
        | cons c cs =>
          rw [hcase] at hx
          simpa [noLeadSlash] using hx
  · exact stripAll_noLead _

theorem orUnsorted_props (t : List Char) :
    orUnsorted t ≠ [] ∧ (noLeadSlash t = true → noLeadSlash (orUnsorted t) = true) := by
  unfold orUnsorted
  split
  · exact ⟨by decide, fun _ => by decide⟩
  · next hne => exact ⟨hne, fun h => h⟩

theorem deriveSubpath_props (inbox : PPath) (src : List Char) :
    deriveSubpath inbox src ≠ [] ∧ noLeadSlash (deriveSubpath inbox src) = true := by
  unfold deriveSubpath
  split
  · exact ⟨(orUnsorted_props _).1, (orUnsorted_props _).2 (stripAll_noLead _)⟩
  · exact ⟨by decide, by decide⟩

set_option maxHeartbeats 1000000 in
theorem npSub2_props (inbox : PPath) (action : RawAction) (cp0 : List Char) :
    npSub2 inbox action cp0 ≠ [] ∧ noLeadSlash (npSub2 inbox action cp0) = true := by
  unfold npSub2
  split
  · exact deriveSubpath_props inbox _
  · next hne => exact ⟨hne, npSub1_noLead action⟩

/-- Every successfully normalized `plan_move` has a nonempty subpath that
does not start with a separator. -/
theorem normalize_plan_move_subpath (uni : Char → List Char) (inbox : PPath)
    (action : RawAction) (cp0 : List Char) (labels : List (List Char))
    (n : PlanMove) (notes : List (List Char))
    (h : normalize_plan_move uni inbox action cp0 labels = (some n, notes)) :
    n.subpath ≠ [] ∧ noLeadSlash n.subpath = true := by
  unfold normalize_plan_move at h
  revert h
  generalize hsp : npSplit action = sp
  generalize hs2 : npSub2 inbox action cp0 = s2
  generalize hfn : npFilename uni action cp0 = fn
  generalize hsr : fs_norm_path (npSrc action cp0) = sr
  generalize hnt : npNotes action = nt
  intro h
  by_cases hc : ((labels.map normKeyL).contains (normKeyL sp.1)) = true
  · rw [if_pos hc] at h
    have h1 : some (PlanMove.mk sr sp.1 s2 fn) = some n := congrArg Prod.fst h
    injection h1 with h2
    rw [← h2]
    have hp := npSub2_props inbox action cp0
    rw [hs2] at hp
    exact hp
  · rw [if_neg hc] at h
    have h1 : (none : Option PlanMove) = some n := congrArg Prod.fst h
    cases h1

theorem splitOnAux_first (t : Char) (l : List Char) (cur : List Char) :
    ∃ p ps, splitOnAux t l cur = (cur.reverse ++ p) :: ps := by
  induction l generalizing cur with
  | nil => exact ⟨[], [], by simp [splitOnAux]⟩
  | cons c rest ih =>
    by_cases hc : (c == t) = true
    · exact ⟨[], splitOnAux t rest [], by simp [splitOnAux, hc]⟩
    · obtain ⟨p, ps, hp⟩ := ih (c :: cur)
      refine ⟨c :: p, ps, ?_⟩
      simp only [splitOnAux, hc, Bool.false_eq_true, if_false, hp,
        List.reverse_cons, List.append_assoc]
      rfl

/-- A nonempty subpath that does not start with a separator contributes at
least one segment at `tool_plan_move`. -/
theorem subpathParts_ne_nil {s : List Char} (hne : s ≠ [])
    (hhead : noLeadSlash s = true) : subpathParts s ≠ [] := by
  cases s with
  | nil => exact absurd rfl hne
  | cons c rest =>
    have hc : (c == '/') = false := by
      simp only [noLeadSlash] at hhead
      simpa using hhead
    unfold subpathParts splitOn
    rw [show splitOnAux '/' (c :: rest) [] = splitOnAux '/' rest [c] from by
      simp [splitOnAux, hc]]
    obtain ⟨p, ps, hp⟩ := splitOnAux_first '/' rest [c]
    rw [hp]
    simp

/-- Membership in one sanitizer step traces back to the accumulator or to a
successful normalization. -/
theorem sanitizeStep_mem (uni : Char → List Char) (inbox : PPath)
    (cp0 : List Char) (labels : List (List Char))
    (acc : List SaneAction × List LogEv) (rawO : Option RawAction)
    (pm : PlanMove)
    (h : SaneAction.planMoveA pm ∈ (sanitizeStep uni inbox cp0 labels acc rawO).1) :
    SaneAction.planMoveA pm ∈ acc.1 ∨
      ∃ raw notes,
        normalize_plan_move uni inbox raw cp0 labels = (some pm, notes) := by
  cases rawO with
  | none => exact Or.inl h
  | some raw =>
    simp only [sanitizeStep] at h
    by_cases hb : (!(pyStrip (orDefault raw.tool []) == cl "list_dir"
        || pyStrip (orDefault raw.tool []) == cl "inspect_file"
        || pyStrip (orDefault raw.tool []) == cl "plan_move")) = true
    · rw [if_pos hb] at h
      exact Or.inl h
    · rw [if_neg hb] at h
      by_cases hr : (pyStrip (orDefault raw.tool []) == cl "list_dir"
          || pyStrip (orDefault raw.tool []) == cl "inspect_file") = true
      · rw [if_pos hr] at h
        rcases List.mem_append.mp h with h3 | h3
        · exact Or.inl h3
        · exfalso
          have h4 := List.mem_singleton.mp h3
          revert h4
          split <;> (intro h4; cases h4)
      · rw [if_neg hr] at h
        rcases hnm : normalize_plan_move uni inbox raw cp0 labels with ⟨onv, notes⟩
        rw [hnm] at h
        cases onv with
        | some n =>
          simp only [sanitizePlanBranch] at h
          by_cases hsub : n.subpath = []
          · rw [if_pos hsub] at h
            exact Or.inl h
          · rw [if_neg hsub] at h
            rcases List.mem_append.mp h with h3 | h3
            · exact Or.inl h3
            · have h4 := List.mem_singleton.mp h3
              have h5 : n = pm := by injection h4.symm
              rw [h5] at hnm
              exact Or.inr ⟨raw, notes, hnm⟩
        | none =>
          simp only [sanitizePlanBranch] at h
          exact Or.inl h

/-- Membership in the sanitizer's output traces back to a successful
normalization. -/
theorem sanitize_mem (uni : Char → List Char) (inbox : PPath) (cp0 : List Char)
    (labels : List (List Char)) :
    ∀ (actions : List (Option RawAction)) (acc : List SaneAction × List LogEv)
      (pm : PlanMove),
    SaneAction.planMoveA pm ∈
        (actions.foldl (sanitizeStep uni inbox cp0 labels) acc).1 →
      SaneAction.planMoveA pm ∈ acc.1 ∨
        ∃ raw notes,
          normalize_plan_move uni inbox raw cp0 labels = (some pm, notes) := by
  intro actions
  induction actions with
  | nil => exact fun acc pm h => Or.inl h
  | cons a rest ih =>
    intro acc pm h
    rcases ih (sanitizeStep uni inbox cp0 labels acc a) pm h with h2 | h2
    · exact sanitizeStep_mem uni inbox cp0 labels acc a pm h2
    · exact Or.inr h2

/-- Sanitizer-level half of the C3 analysis: a `plan_move` action produced by
the sanitizer never carries an empty subpath (the model-supplied subpath, when
empty after trimming, is replaced by the source's parent relative to the inbox
root or by `Unsorted`, both nonempty; the still-empty case is dropped as
`empty_subpath`), and that exact string, fed as-is to `tool_plan_move`,
contributes at least one directory segment.  The orchestrator, however,
re-strips the subpath before the call — see the C3 theorem below for the
whitespace-only subpath that slips through. -/
theorem sanitize_subpath_never_empty (uni : Char → List Char) (inbox : PPath)
    (actions : List (Option RawAction)) (current_path : List Char)
    (pm : PlanMove)
    (h : SaneAction.planMoveA pm ∈
      (sanitize_actions uni inbox actions current_path allowed_root_names).1) :
    pm.subpath ≠ [] ∧ noLeadSlash pm.subpath = true
      ∧ subpathParts pm.subpath ≠ []
      ∧ (∀ vault dir,
          tool_plan_move_dest_dir vault pm.destination_root pm.subpath = some dir →
            vault.length + 1 < dir.length) := by
  unfold sanitize_actions at h
  rcases sanitize_mem uni inbox (fs_norm_path current_path) allowed_root_names
      actions ([], []) pm h with h2 | ⟨raw, notes, hnm⟩
  · simp at h2
  · obtain ⟨hne, hlead⟩ := normalize_plan_move_subpath uni inbox raw
      (fs_norm_path current_path) allowed_root_names pm notes hnm
    have hparts := subpathParts_ne_nil hne hlead
    refine ⟨hne, hlead, hparts, ?_⟩
    intro vault dir hdir
    unfold tool_plan_move_dest_dir at hdir
    cases hroot : rootMapLookup pm.destination_root with
    | none => rw [hroot] at hdir; cases hdir
    | some name =>
      rw [hroot] at hdir
      simp only [Option.map_some', Option.some.injEq] at hdir
      subst hdir
      have : 1 ≤ (subpathParts pm.subpath).length := by
        cases hp : subpathParts pm.subpath with
        | nil => exact absurd hp hparts
        | cons x xs => simp
      simp only [List.length_append, List.length_map, List.length_cons,
        List.length_nil]
      omega

/-- The sanitizer-level property at a concrete input: a raw `plan_move` with
a valid root alias and an empty subpath; the sanitizer derives the subpath
`sub` from the source's parent relative to the inbox root, and the
destination directory gains a segment. -/
theorem sanitize_subpath_never_empty_witness :
    SaneAction.planMoveA
        ⟨cl "/v/INBOX/sub/a.pdf", cl "Documents", cl "sub", cl "a.pdf"⟩ ∈
      (sanitize_actions (fun c => [c]) ⟨1, [cl "v", cl "INBOX"]⟩
        [some ⟨some (cl "plan_move"), none, some (cl "/v/INBOX/sub/a.pdf"),
          some (cl "documents"), some (cl ""), none⟩]
        (cl "/v/INBOX/sub/a.pdf") allowed_root_names).1
    ∧ (cl "sub" : List Char) ≠ []
    ∧ noLeadSlash (cl "sub") = true
    ∧ subpathParts (cl "sub") ≠ []
    ∧ tool_plan_move_dest_dir [cl "v2"] (cl "Documents") (cl "sub")
        = some [cl "v2", cl "Documents", cl "sub"] := by
  refine ⟨by decide, ?_, ?_, ?_, by decide⟩
  · exact (sanitize_subpath_never_empty (fun c => [c]) ⟨1, [cl "v", cl "INBOX"]⟩
      [some ⟨some (cl "plan_move"), none, some (cl "/v/INBOX/sub/a.pdf"),
        some (cl "documents"), some (cl ""), none⟩]
      (cl "/v/INBOX/sub/a.pdf")
      ⟨cl "/v/INBOX/sub/a.pdf", cl "Documents", cl "sub", cl "a.pdf"⟩
      (by decide)).1
  · exact (sanitize_subpath_never_empty (fun c => [c]) ⟨1, [cl "v", cl "INBOX"]⟩
      [some ⟨some (cl "plan_move"), none, some (cl "/v/INBOX/sub/a.pdf"),
        some (cl "documents"), some (cl ""), none⟩]
      (cl "/v/INBOX/sub/a.pdf")
      ⟨cl "/v/INBOX/sub/a.pdf", cl "Documents", cl "sub", cl "a.pdf"⟩
      (by decide)).2.1
  · exact (sanitize_subpath_never_empty (fun c => [c]) ⟨1, [cl "v", cl "INBOX"]⟩
      [some ⟨some (cl "plan_move"), none, some (cl "/v/INBOX/sub/a.pdf"),
        some (cl "documents"), some (cl ""), none⟩]
      (cl "/v/INBOX/sub/a.pdf")
      ⟨cl "/v/INBOX/sub/a.pdf", cl "Documents", cl "sub", cl "a.pdf"⟩
      (by decide)).2.2.1


/-- Every value stored in the default alias map is one of the three
canonical root labels. -/
theorem aliasGet_values {k c : List Char} (h : aliasGet root_alias_map k = some c) :
    c = cl "Documents" ∨ c = cl "Media" ∨ c = cl "Projects" := by
  have hmap : root_alias_map =
      [(cl "documents", cl "Documents"), (cl "media", cl "Media"),
        (cl "projects", cl "Projects")] := by decide
  rw [hmap] at h
  unfold aliasGet at h
  by_cases h1 : (cl "documents" == k) = true
  · simp only [List.find?, h1] at h
    exact Or.inl (by simpa using h.symm)
  · by_cases h2 : (cl "media" == k) = true
    · simp only [List.find?, h1, h2] at h
      exact Or.inr (Or.inl (by simpa using h.symm))
    · by_cases h3 : (cl "projects" == k) = true
      · simp only [List.find?, h1, h2, h3] at h
        exact Or.inr (Or.inr (by simpa using h.symm))
      · simp only [List.find?, h1, h2, h3] at h
        cases h

/-- Claim C5: `normalize_plan_move` resolves `destination_root` through the
alias map built from the configured allowed destinations plus the canonical
English fallbacks (concretely `documents/media/projects` → the canonical
labels), keyed case- and whitespace-insensitively (`normKeyL` of the stripped
raw root); when the raw root misses the map but embeds a `Root/extra` pattern
whose head matches an alias, the head becomes the canonical root, the tail is
prepended to the subpath, and the `auto_split_root_subpath` note is recorded;
and when the final root is not in the allowed set, the action is rejected with
reason `invalid_root` and contributes nothing to the sanitizer's output. -/
theorem normalize_plan_move_alias_split_invalid (uni : Char → List Char)
    (inbox : PPath) (action : RawAction) (cp0 : List Char) :
    (root_alias_map = [(cl "documents", cl "Documents"), (cl "media", cl "Media"),
        (cl "projects", cl "Projects")])
    ∧ (∀ canon, aliasGet root_alias_map (normKeyL (npRawRoot action)) = some canon →
        npSplit action = (canon, [], false)
        ∧ normalize_plan_move uni inbox action cp0 allowed_root_names
            = (some ⟨fs_norm_path (npSrc action cp0), canon,
                npSub2 inbox action cp0, npFilename uni action cp0⟩, []))
    ∧ (∀ hd tl canon,
        aliasGet root_alias_map (normKeyL (npRawRoot action)) = none →
        splitFirst '/' (stripAll '/' (pyStrip (npRawRoot action))) = (hd, some tl) →
        aliasGet root_alias_map (normKeyL (pyStrip hd)) = some canon →
        npSplit action = (canon, stripAll '/' (pyStrip tl), true)
        ∧ npNotes action = [cl "auto_split_root_subpath"]
        ∧ normalize_plan_move uni inbox action cp0 allowed_root_names
            = (some ⟨fs_norm_path (npSrc action cp0), canon, npSub2 inbox action cp0,
                npFilename uni action cp0⟩, [cl "auto_split_root_subpath"])
        ∧ (npSub0 action ≠ [] →
            npSub2 inbox action cp0
              = joinNonempty [stripAll '/' (pyStrip tl), npSub0 action]))
    ∧ (pyStrip (orDefault action.tool []) = cl "plan_move" →
        ((allowed_root_names.map normKeyL).contains
          (normKeyL (npSplit action).1)) = false →
        normalize_plan_move uni inbox action cp0 allowed_root_names
            = (none, npNotes action ++ [cl "invalid_root"])
        ∧ (sanitize_actions uni inbox [some action] cp0 allowed_root_names).1 = []
        ∧ (sanitize_actions uni inbox [some action] cp0 allowed_root_names).2
            = [LogEv.invalidPlanMove (npNotes action ++ [cl "invalid_root"])]) := by
  refine ⟨by decide, ?_, ?_, ?_⟩
  · intro canon hag
    have hcan := aliasGet_values hag
    have hroot0 : npRoot0 action = canon := by
      unfold npRoot0
      rw [hag]
    have hsplit : npSplit action = (canon, [], false) := by
      unfold npSplit
      rw [hroot0]
      rcases hcan with rfl | rfl | rfl <;> decide
    have hnotes : npNotes action = [] := by
      unfold npNotes
      rw [hsplit]
      rfl
    have hc1 : (npSplit action).1 = canon := by rw [hsplit]
    refine ⟨hsplit, ?_⟩
    unfold normalize_plan_move
    rw [hc1, if_pos (by rcases hcan with rfl | rfl | rfl <;> decide), hnotes]
  · intro hd tl canon hmiss hsf hhd
    have hcan := aliasGet_values hhd
    have hroot0 : npRoot0 action = stripAll '/' (pyStrip (npRawRoot action)) := by
      unfold npRoot0
      rw [hmiss]
    have hsplit : npSplit action = (canon, stripAll '/' (pyStrip tl), true) := by
      unfold npSplit auto_split_root
      rw [hroot0]
      simp only [hsf, hhd]
    have hnotes : npNotes action = [cl "auto_split_root_subpath"] := by
      unfold npNotes
      rw [hsplit]
      rfl
    have hsub1 : npSub1 action
        = joinNonempty [stripAll '/' (pyStrip tl), npSub0 action] := by
      unfold npSub1
      rw [hsplit]
      rfl
    have hc1 : (npSplit action).1 = canon := by rw [hsplit]
    refine ⟨hsplit, hnotes, ?_, ?_⟩
    · unfold normalize_plan_move
      rw [hc1, if_pos (by rcases hcan with rfl | rfl | rfl <;> decide), hnotes]
    · intro hne
      have hjne : joinNonempty [stripAll '/' (pyStrip tl), npSub0 action] ≠ [] := by
        rw [joinNonempty_pair]
        by_cases ha : stripAll '/' (pyStrip tl) = []
        · rw [if_pos ha]
          exact hne
        · rw [if_neg ha]
          by_cases hb : npSub0 action = []
          · rw [if_pos hb]
            exact ha
          · rw [if_neg hb]
            intro hc
            cases hx : stripAll '/' (pyStrip tl) with
            | nil => exact ha hx
            | cons a as_ =>
              rw [hx] at hc
              cases hc
      unfold npSub2
      split
      · next hcond =>
        rw [hsub1] at hcond
        exact absurd hcond hjne
      · exact hsub1
  · intro htool hinv
    have hnorm : ∀ labcp, normalize_plan_move uni inbox action labcp allowed_root_names
        = (none, npNotes action ++ [cl "invalid_root"]) := by
      intro labcp
      unfold normalize_plan_move
      rw [if_neg (by simp only [hinv]; decide)]
    refine ⟨hnorm cp0, ?_, ?_⟩
    all_goals
      unfold sanitize_actions
      simp only [List.foldl, sanitizeStep, htool]
      rw [if_neg (by decide), if_neg (by decide), hnorm]
      simp [sanitizePlanBranch]

/-- Concrete inputs for the C5 witness: an alias hit with surrounding
whitespace and upper case, an embedded `Documents/Finance/2023` root, and the
disallowed root `Desktop`. -/
def c5uni : Char → List Char := fun c => [c]

def c5inbox : PPath := ⟨1, [cl "v", cl "INBOX"]⟩

def c5cp : List Char := cl "/v/INBOX/sub/a.pdf"

def c5a1 : RawAction :=
  ⟨some (cl "plan_move"), none, some (cl "/v/INBOX/sub/a.pdf"),
    some (cl " DOCUMENTS "), some (cl "x"), some (cl "a.pdf")⟩

def c5a2 : RawAction :=
  ⟨some (cl "plan_move"), none, some (cl "/v/INBOX/sub/a.pdf"),
    some (cl "Documents/Finance/2023"), some (cl "x"), some (cl "a.pdf")⟩

def c5a3 : RawAction :=
  ⟨some (cl "plan_move"), none, some (cl "/v/INBOX/sub/a.pdf"),
    some (cl "Desktop"), some (cl "x"), some (cl "a.pdf")⟩

/-- Witness for C5 at the three concrete actions. -/
theorem normalize_plan_move_alias_split_invalid_witness :
    (npSplit c5a1 = (cl "Documents", [], false)
      ∧ normalize_plan_move c5uni c5inbox c5a1 c5cp allowed_root_names
          = (some ⟨fs_norm_path (npSrc c5a1 c5cp), cl "Documents",
              npSub2 c5inbox c5a1 c5cp, npFilename c5uni c5a1 c5cp⟩, []))
    ∧ (npSplit c5a2 = (cl "Documents",
          stripAll '/' (pyStrip (cl "Finance/2023")), true)
      ∧ npNotes c5a2 = [cl "auto_split_root_subpath"]
      ∧ normalize_plan_move c5uni c5inbox c5a2 c5cp allowed_root_names
          = (some ⟨fs_norm_path (npSrc c5a2 c5cp), cl "Documents",
              npSub2 c5inbox c5a2 c5cp, npFilename c5uni c5a2 c5cp⟩,
            [cl "auto_split_root_subpath"])
      ∧ (npSub0 c5a2 ≠ [] →
          npSub2 c5inbox c5a2 c5cp
            = joinNonempty [stripAll '/' (pyStrip (cl "Finance/2023")),
                npSub0 c5a2]))
    ∧ (normalize_plan_move c5uni c5inbox c5a3 c5cp allowed_root_names
          = (none, npNotes c5a3 ++ [cl "invalid_root"])
      ∧ (sanitize_actions c5uni c5inbox [some c5a3] c5cp allowed_root_names).1 = []
      ∧ (sanitize_actions c5uni c5inbox [some c5a3] c5cp allowed_root_names).2
          = [LogEv.invalidPlanMove (npNotes c5a3 ++ [cl "invalid_root"])]) := by
  refine ⟨?_, ?_, ?_⟩
  · exact (normalize_plan_move_alias_split_invalid c5uni c5inbox c5a1 c5cp).2.1
      (cl "Documents") (by decide)
  · exact (normalize_plan_move_alias_split_invalid c5uni c5inbox c5a2 c5cp).2.2.1
      (cl "Documents") (cl "Finance/2023") (cl "Documents")
      (by decide) (by decide) (by decide)
  · exact (normalize_plan_move_alias_split_invalid c5uni c5inbox c5a3 c5cp).2.2.2
      (by decide) (by decide)


/-! ## agent.run: one step of the orchestrator loop (claim C8)

The filesystem, the LLM and the owner detector are oracles; the prompt text,
the tree snapshots' contents and the raw log payloads are outside the model
(each `llm_json` call is the `llmCall` event, the sanitizer's log callback is
the `sanLog` event).  `MAX_STEPS` is the loop guard, not the body. -/

def ST_LIGHT : Nat := 0

def ST_DECIDE : Nat := 1

def SNAP_TTL_STEPS : Nat := 10

def INSPECT_CAP_PER_FILE : Nat := 2

/-- `agent.DEP_DIR_NAMES`. -/
def DEP_DIR_NAMES : List (List Char) :=
  [cl "node_modules", cl "bower_components", cl "vendor",
    cl ".venv", cl "venv", cl ".pip", cl ".mypy_cache",
    cl ".git", cl ".svn", cl ".hg", cl "build", cl "dist", cl "target",
    cl ".next", cl ".cache"]

/-- `agent._is_in_dep_dir`: some `Path.parts` component is denylisted (the
leading `/` part of an absolute path is never a denylist member, so only the
components matter). -/
def is_in_dep_dir (p : List Char) : Bool :=
  (parsePPath p).comps.any (fun part => DEP_DIR_NAMES.contains part)

/-- The memory notes appended by `run` (inspection results and counts are
carried only as far as later control flow reads them). -/
inductive MemE where
  | listDirM (path : List Char) (result_count : Nat)
  | inspectM (path : List Char)
  | policyHint
  | ownerHint (path owner : List Char)
deriving DecidableEq

/-- The observable events of one loop iteration, in emission order (each
`llmCall` is one `llm_json` model call, tagged with the stage's prompt). -/
inductive AgEv where
  | skipDep (path : List Char)
  | stepE (step : Nat) (target : List Char) (stage : Nat)
  | listDirE (path : List Char) (result_count kept : Nat)
  | llmCall (stage : Nat)
  | sanLog (logs : List LogEv)
  | inspectE (path : List Char)
  | noProgressRotate (target : List Char)
  | snapRefresh
  | decideFailE (target : List Char)
  | invalidPlanMoveE
  | planExec (src dest_root subpath filename : List Char)
  | planDone
deriving DecidableEq

/-- The filesystem/content oracles of one step: directory and file tests,
`tool_list_dir` item paths, `Path.resolve`, `iterdir` names for the consensus
cap (`none` is the `except: pass` path), and `detect_owner_for_path`. -/
structure FsO where
  isDir : List Char → Bool
  isFile : List Char → Bool
  pexists : List Char → Bool
  listDir : List Char → List (List Char)
  res : List Char → List Char
  childNames : List Char → Option (List (List Char))
  ownerOf : List Char → Option (List Char)

/-- The orchestrator state threaded through the loop (`llmN` counts the
model calls made so far and indexes the LLM oracle). -/
structure AgentSt where
  queue : List (List Char)
  stage : List (List Char × Nat)
  inspected : List (List Char × Nat)
  decideFails : List (List Char × Nat)
  mem : List MemE
  coh : CohesionTracker
  snapExp : Nat
  stepN : Nat
  llmN : Nat

/-- `d.get(k, default)` on a `str → int` dict. -/
def alGet (m : List (List Char × Nat)) (k : List Char) (d : Nat) : Nat :=
  ((m.find? (fun p => p.1 == k)).map (fun p => p.2)).getD d

/-- `d[k] = v`: update in place, else append (insertion order). -/
def alSet (m : List (List Char × Nat)) (k : List Char) (v : Nat) :
    List (List Char × Nat) :=
  if m.any (fun p => p.1 == k) then
    m.map (fun p => if p.1 == k then (p.1, v) else p)
  else m ++ [(k, v)]

/-- `d.pop(k, None)`. -/
def alPop (m : List (List Char × Nat)) (k : List Char) : List (List Char × Nat) :=
  m.filter (fun p => !(p.1 == k))

/-- `queue.rotate(-1)`: the head goes to the back. -/
def rotate1 : List (List Char) → List (List Char)
  | [] => []
  | x :: xs => xs ++ [x]

/-- `str(pathlib.Path(s).parent)`. -/
def strParent (s : List Char) : List Char :=
  ppathStr ⟨(parsePPath s).root, (parsePPath s).comps.dropLast⟩

/-- The `_keep`/`_keep2` filters: drop hidden names and dependency dirs. -/
def keepChild (pstr : List Char) : Bool :=
  !(lStarts (cl ".") (pathNameStr (fs_norm_path pstr))) &&
    !(is_in_dep_dir (fs_norm_path pstr))

/-- `any(m.get("tool") == "list_dir" and m.get("path") == key for m in mem[-64:])`. -/
def memHasListDir (mem : List MemE) (key : List Char) : Bool :=
  (mem.drop (mem.length - 64)).any (fun m =>
    match m with
    | MemE.listDirM p _ => p == key
    | _ => false)

/-- LIGHT keeps only the probe tools (`inspect_file`, `list_dir`). -/
def isProbe : SaneAction → Bool
  | SaneAction.listDirA _ => true
  | SaneAction.inspectFileA _ => true
  | SaneAction.planMoveA _ => false

/-- `a.get("path", key)` on a sanitized action. -/
def probePath (a : SaneAction) (key : List Char) : List Char :=
  match a with
  | SaneAction.listDirA p => p
  | SaneAction.inspectFileA p => p
  | SaneAction.planMoveA _ => key

/-- The LIGHT action list after the empty-fallback: the kept probes, else a
first inspection of a file target, else empty (the rotate path). -/
def lightActs (fs : FsO) (inspected : List (List Char × Nat)) (key : List Char)
    (kept : List SaneAction) : List SaneAction :=
  if kept ≠ [] then kept
  else if fs.isFile key && (alGet inspected key 0 == 0) then
    [SaneAction.inspectFileA key]
  else []

/-- Deterministic directory expansion (no LLM): pop the target, push its kept
children (normalized, sorted) on the front. -/
def dirExpand (fs : FsO) (st : AgentSt) (q0 : List Char)
    (rest : List (List Char)) : AgentSt × List AgEv :=
  ({st with
      queue := ((sortLe ((fs.listDir (fs_norm_path q0)).filter keepChild)).map
        fs_norm_path) ++ rest,
      mem := st.mem ++ [MemE.listDirM (fs_norm_path q0)
        (fs.listDir (fs_norm_path q0)).length]},
    [AgEv.listDirE (fs_norm_path q0) (fs.listDir (fs_norm_path q0)).length
      (sortLe ((fs.listDir (fs_norm_path q0)).filter keepChild)).length])

/-- The tool branches of the LIGHT stage, past the dependency guard
(`plan_move` cannot reach here: LIGHT filters to the probe tools). -/
def lightExec (fs : FsO) (st : AgentSt) (q0 : List Char)
    (rest : List (List Char)) (logs : List LogEv) (a : SaneAction) :
    AgentSt × List AgEv :=
  match a with
  | SaneAction.inspectFileA p =>
    if INSPECT_CAP_PER_FILE ≤ alGet st.inspected p 0 then
      ({st with
          llmN := st.llmN + 1,
          stage := alSet st.stage (fs_norm_path q0) ST_DECIDE},
        [AgEv.llmCall ST_LIGHT, AgEv.sanLog logs])
    else
      ({st with
          llmN := st.llmN + 1,
          mem := st.mem ++ [MemE.inspectM (fs_norm_path p)],
          inspected := alSet st.inspected p (alGet st.inspected p 0 + 1),
          stage := alSet st.stage (fs_norm_path q0) ST_DECIDE},
        [AgEv.llmCall ST_LIGHT, AgEv.sanLog logs, AgEv.inspectE (fs_norm_path p)])
  | a =>
    ({st with
        llmN := st.llmN + 1,
        queue := ((sortLe ((fs.listDir (fs_norm_path (probePath a (fs_norm_path q0)))).filter
            keepChild)).map fs_norm_path) ++ rest,
        mem := st.mem ++ [MemE.listDirM (fs_norm_path (probePath a (fs_norm_path q0)))
          (fs.listDir (fs_norm_path (probePath a (fs_norm_path q0)))).length],
        stage := alSet st.stage (fs_norm_path q0) ST_DECIDE},
      [AgEv.llmCall ST_LIGHT, AgEv.sanLog logs,
        AgEv.listDirE (fs_norm_path (probePath a (fs_norm_path q0)))
          (fs.listDir (fs_norm_path (probePath a (fs_norm_path q0)))).length
          (sortLe ((fs.listDir (fs_norm_path (probePath a (fs_norm_path q0)))).filter
            keepChild)).length])

/-- The LIGHT stage from the sanitized action list on: empty → rotate; the
head action in a dependency dir → skip and rotate; else run its tool. -/
def lightGo (fs : FsO) (st : AgentSt) (q0 : List Char) (rest : List (List Char))
    (logs : List LogEv) (acts : List SaneAction) : AgentSt × List AgEv :=
  match acts with
  | [] =>
    ({st with
        queue := rotate1 (q0 :: rest),
        llmN := st.llmN + 1},
      [AgEv.llmCall ST_LIGHT, AgEv.sanLog logs,
        AgEv.noProgressRotate (fs_norm_path q0)])
  | a :: _ =>
    if is_in_dep_dir (fs_norm_path (probePath a (fs_norm_path q0))) then
      ({st with
          queue := rotate1 (q0 :: rest),
          llmN := st.llmN + 1},
        [AgEv.llmCall ST_LIGHT, AgEv.sanLog logs,
          AgEv.skipDep (probePath a (fs_norm_path q0))])
    else lightExec fs st q0 rest logs a

/-- STAGE 1 (LIGHT): one `llm_json` call, sanitize, keep probes, fallback,
guard, run. -/
def lightRun (uni : Char → List Char) (fs : FsO)
    (llm : Nat → List (Option RawAction)) (inbox : PPath)
    (labels : List (List Char)) (st : AgentSt) (q0 : List Char)
    (rest : List (List Char)) : AgentSt × List AgEv :=
  lightGo fs st q0 rest
    (sanitize_actions uni inbox (llm st.llmN) (fs_norm_path q0) labels).2
    (lightActs fs st.inspected (fs_norm_path q0)
      ((sanitize_actions uni inbox (llm st.llmN) (fs_norm_path q0) labels).1.filter
        isProbe))

/-- One `_ask_decide`: a model call, sanitize, keep only `plan_move`. -/
def askMoves (uni : Char → List Char) (inbox : PPath)
    (labels : List (List Char)) (resp : List (Option RawAction))
    (key : List Char) : List PlanMove × List LogEv :=
  ((sanitize_actions uni inbox resp key labels).1.foldr
      (fun a acc =>
        match a with
        | SaneAction.planMoveA pm => pm :: acc
        | _ => acc) [],
    (sanitize_actions uni inbox resp key labels).2)

/-- The execute-one-`plan_move` tail of DECIDE, after the escalation decision:
re-check existence, owner hint, final name, the move, the queue purge. -/
def decideFinish (uni : Char → List Char) (fs : FsO) (st : AgentSt)
    (q0 : List Char) (rest : List (List Char)) (evs : List AgEv)
    (src2 dr sb fnA : List Char) : AgentSt × List AgEv :=
  if !(fs.pexists src2) then
    ({st with queue := rotate1 (q0 :: rest)}, evs ++ [AgEv.invalidPlanMoveE])
  else
    ({st with
        mem := match (if (st.mem.drop (st.mem.length - 8)).any (fun m =>
              match m with
              | MemE.inspectM p => p == src2
              | _ => false) then fs.ownerOf src2 else none) with
          | some o => st.mem ++ [MemE.ownerHint src2 o]
          | none => st.mem,
        queue := match purge_queue_under fs.res (q0 :: rest) src2 with
          | [] => []
          | x :: xs => if x == src2 then xs else x :: xs,
        decideFails := alPop st.decideFails (fs_norm_path q0)},
      evs ++ [AgEv.planExec src2 dr sb
          (if pathNameStr src2 = [] then (if fnA = [] then cl "unnamed" else fnA)
           else safe_ascii uni (pathNameStr src2)),
        AgEv.planDone])

/-- The validated `plan_move` execution: falsy/missing-source check, the hard
dependency guard, the cohesion vote, the consensus escalation. -/
def decideExec (uni : Char → List Char) (fs : FsO) (inbox : PPath)
    (st : AgentSt) (q0 : List Char) (rest : List (List Char)) (evs : List AgEv)
    (pm : PlanMove) : AgentSt × List AgEv :=
  if fs_norm_path pm.src = [] || pm.destination_root = [] ||
      !(fs.pexists (fs_norm_path pm.src)) then
    ({st with queue := rotate1 (q0 :: rest)}, evs ++ [AgEv.invalidPlanMoveE])
  else if is_in_dep_dir (fs_norm_path pm.src) then
    ({st with queue := rotate1 (q0 :: rest)},
      evs ++ [AgEv.skipDep (fs_norm_path pm.src)])
  else
    let src := fs_norm_path pm.src
    let parent := strParent src
    let coh1 := if is_in_dep_dir src then st.coh
      else cohNote st.coh parent src pm.destination_root (pyStrip pm.subpath)
    match (consensus coh1 parent (fs.childNames parent)).1 with
    | some c =>
      if fs.isFile src && !(fs.res parent == fs.res (ppathStr inbox)) then
        decideFinish uni fs
          {st with coh := { coh1 with
            already_escalated := coh1.already_escalated ++ [parent] }}
          q0 rest evs (fs_norm_path parent) c.1 c.2
          (safe_ascii uni (pathNameStr parent))
      else
        decideFinish uni fs {st with coh := coh1} q0 rest evs src
          pm.destination_root (pyStrip pm.subpath) pm.filename
    | none =>
      decideFinish uni fs {st with coh := coh1} q0 rest evs src
        pm.destination_root (pyStrip pm.subpath) pm.filename

/-- STAGE 2 (DECIDE): snapshot refresh, up to two `_ask_decide` model calls
(the second with a policy-hint memory note), then rotate or execute. -/
def decideRun (uni : Char → List Char) (fs : FsO)
    (llm : Nat → List (Option RawAction)) (inbox : PPath)
    (labels : List (List Char)) (st : AgentSt) (q0 : List Char)
    (rest : List (List Char)) : AgentSt × List AgEv :=
  let st1 := {st with snapExp := if st.snapExp ≤ st.stepN
    then st.stepN + SNAP_TTL_STEPS else st.snapExp}
  let evS := if st.snapExp ≤ st.stepN then [AgEv.snapRefresh] else []
  match (askMoves uni inbox labels (llm st1.llmN) (fs_norm_path q0)).1 with
  | mv :: _ =>
    decideExec uni fs inbox {st1 with llmN := st1.llmN + 1} q0 rest
      (evS ++ [AgEv.llmCall ST_DECIDE,
        AgEv.sanLog (askMoves uni inbox labels (llm st1.llmN) (fs_norm_path q0)).2])
      mv
  | [] =>
    let st2 := {st1 with
      llmN := st1.llmN + 1,
      mem := st1.mem ++ [MemE.policyHint]}
    let evs2 := evS ++ [AgEv.llmCall ST_DECIDE,
      AgEv.sanLog (askMoves uni inbox labels (llm st1.llmN) (fs_norm_path q0)).2,
      AgEv.llmCall ST_DECIDE,
      AgEv.sanLog (askMoves uni inbox labels (llm st2.llmN) (fs_norm_path q0)).2]
    match (askMoves uni inbox labels (llm st2.llmN) (fs_norm_path q0)).1 with
    | mv :: _ =>
      decideExec uni fs inbox {st2 with llmN := st2.llmN + 1} q0 rest evs2 mv
    | [] =>
      ({st2 with
          llmN := st2.llmN + 1,
          queue := rotate1 (q0 :: rest),
          decideFails := alSet st2.decideFails (fs_norm_path q0)
            (alGet st2.decideFails (fs_norm_path q0) 0 + 1)},
        evs2 ++ [AgEv.decideFailE (fs_norm_path q0)])

/-- The loop body past the top-of-loop dependency skip: the step log, the
deterministic directory expansion, then the LIGHT or DECIDE stage. -/
def stepBody (uni : Char → List Char) (fs : FsO)
    (llm : Nat → List (Option RawAction)) (inbox : PPath)
    (labels : List (List Char)) (st : AgentSt) (q0 : List Char)
    (rest : List (List Char)) : AgentSt × List AgEv :=
  let r :=
    if fs.isDir (fs_norm_path q0) && !(memHasListDir st.mem (fs_norm_path q0)) then
      dirExpand fs st q0 rest
    else if alGet st.stage (fs_norm_path q0) ST_LIGHT == ST_LIGHT then
      lightRun uni fs llm inbox labels st q0 rest
    else decideRun uni fs llm inbox labels st q0 rest
  (r.1, AgEv.stepE st.stepN (fs_norm_path q0)
    (alGet st.stage (fs_norm_path q0) ST_LIGHT) :: r.2)

/-- One iteration of `run`'s while loop (empty queue: the loop does not run).
`step += 1` happens first; a target inside a dependency directory is then
dropped before anything else — in particular before any model call. -/
def agent_step (uni : Char → List Char) (fs : FsO)
    (llm : Nat → List (Option RawAction)) (inbox : PPath)
    (labels : List (List Char)) (st : AgentSt) : AgentSt × List AgEv :=
  match st.queue with
  | [] => (st, [])
  | q0 :: rest =>
    if is_in_dep_dir (fs_norm_path q0) then
      ({st with queue := rest, stepN := st.stepN + 1},
        [AgEv.skipDep (fs_norm_path q0)])
    else stepBody uni fs llm inbox labels
      {st with stepN := st.stepN + 1} q0 rest

/-- Claim C8: a queue item inside a dependency directory is removed at the top
of the step loop before any model call, whatever its stage; and in the LIGHT
stage, an action targeting a dependency-directory path is skipped (the queue
is deferred by rotation) before its tool runs — no inspection, no directory
listing, no move. -/
theorem agent_step_dep_guard :
    (∀ (uni : Char → List Char) (fs : FsO) (llm : Nat → List (Option RawAction))
        (inbox : PPath) (labels : List (List Char)) (st : AgentSt)
        (q0 : List Char) (rest : List (List Char)),
      st.queue = q0 :: rest →
      is_in_dep_dir (fs_norm_path q0) = true →
      agent_step uni fs llm inbox labels st
          = ({st with queue := rest, stepN := st.stepN + 1},
            [AgEv.skipDep (fs_norm_path q0)])
        ∧ (∀ m, AgEv.llmCall m ∉ (agent_step uni fs llm inbox labels st).2))
    ∧ (∀ (uni : Char → List Char) (fs : FsO) (llm : Nat → List (Option RawAction))
        (inbox : PPath) (labels : List (List Char)) (st : AgentSt)
        (q0 : List Char) (rest : List (List Char)) (a : SaneAction)
        (as_ : List SaneAction),
      st.queue = q0 :: rest →
      is_in_dep_dir (fs_norm_path q0) = false →
      (fs.isDir (fs_norm_path q0) && !(memHasListDir st.mem (fs_norm_path q0)))
          = false →
      alGet st.stage (fs_norm_path q0) ST_LIGHT = ST_LIGHT →
      lightActs fs st.inspected (fs_norm_path q0)
          ((sanitize_actions uni inbox (llm st.llmN) (fs_norm_path q0)
            labels).1.filter isProbe) = a :: as_ →
      is_in_dep_dir (fs_norm_path (probePath a (fs_norm_path q0))) = true →
      agent_step uni fs llm inbox labels st
          = ({st with
              queue := rotate1 (q0 :: rest),
              stepN := st.stepN + 1,
              llmN := st.llmN + 1},
            [AgEv.stepE (st.stepN + 1) (fs_norm_path q0) ST_LIGHT,
              AgEv.llmCall ST_LIGHT,
              AgEv.sanLog (sanitize_actions uni inbox (llm st.llmN)
                (fs_norm_path q0) labels).2,
              AgEv.skipDep (probePath a (fs_norm_path q0))])
        ∧ (∀ p, AgEv.inspectE p ∉ (agent_step uni fs llm inbox labels st).2)
        ∧ (∀ p n k, AgEv.listDirE p n k ∉ (agent_step uni fs llm inbox labels st).2)
        ∧ (∀ s r sb f,
            AgEv.planExec s r sb f ∉ (agent_step uni fs llm inbox labels st).2)) := by
  constructor
  · intro uni fs llm inbox labels st q0 rest hq hdep
    obtain ⟨q, sg, ins, df, mem, coh, se, sn, ln⟩ := st
    simp only at hq
    subst hq
    have heq : agent_step uni fs llm inbox labels ⟨q0 :: rest, sg, ins, df, mem, coh, se, sn, ln⟩
        = (⟨rest, sg, ins, df, mem, coh, se, sn + 1, ln⟩,
          [AgEv.skipDep (fs_norm_path q0)]) := by
      simp only [agent_step]
      rw [if_pos hdep]
    exact ⟨heq, by
      rw [heq]
      intro m hmem
      simp only [List.mem_singleton] at hmem
      cases hmem⟩
  · intro uni fs llm inbox labels st q0 rest a as_ hq hdep hdir hstage hacts hguard
    obtain ⟨q, sg, ins, df, mem, coh, se, sn, ln⟩ := st
    simp only at hq hdir hstage hacts
    subst hq
    have heq : agent_step uni fs llm inbox labels ⟨q0 :: rest, sg, ins, df, mem, coh, se, sn, ln⟩
        = (⟨rotate1 (q0 :: rest), sg, ins, df, mem, coh, se, sn + 1, ln + 1⟩,
          [AgEv.stepE (sn + 1) (fs_norm_path q0) ST_LIGHT,
            AgEv.llmCall ST_LIGHT,
            AgEv.sanLog (sanitize_actions uni inbox (llm ln)
              (fs_norm_path q0) labels).2,
            AgEv.skipDep (probePath a (fs_norm_path q0))]) := by
      simp only [agent_step]
      rw [if_neg (by rw [hdep]; exact Bool.false_ne_true)]
      simp only [stepBody]
      rw [if_neg (by rw [hdir]; exact Bool.false_ne_true),
        if_pos (by rw [hstage]; exact rfl)]
      simp only [lightRun]
      rw [hacts]
      simp only [lightGo]
      rw [if_pos hguard, hstage]
    refine ⟨heq, ?_, ?_, ?_⟩
    · intro p hmem
      rw [heq] at hmem
      simp at hmem
    · intro p n k hmem
      rw [heq] at hmem
      simp at hmem
    · intro s r sb f hmem
      rw [heq] at hmem
      simp at hmem

/-- Concrete inputs for the C8 witness: a bare-filesystem oracle, an LLM
answering one `inspect_file` into `node_modules`, a `.git` target for the
top-of-loop skip and a clean file target for the LIGHT guard. -/
def c8uni : Char → List Char := fun c => [c]

def c8inbox : PPath := ⟨1, [cl "v", cl "INBOX"]⟩

def c8fs : FsO :=
  ⟨fun _ => false, fun _ => false, fun _ => false, fun _ => [],
    fun p => p, fun _ => none, fun _ => none⟩

def c8llm : Nat → List (Option RawAction) :=
  fun _ => [some ⟨some (cl "inspect_file"), some (cl "/v/INBOX/node_modules/x.js"),
    none, none, none, none⟩]

def c8st1 : AgentSt :=
  ⟨[cl "/v/INBOX/.git/config"], [], [], [], [], ⟨3, 4, 5, 500, [], []⟩, 0, 0, 0⟩

def c8st2 : AgentSt :=
  ⟨[cl "/v/INBOX/a.txt"], [], [], [], [], ⟨3, 4, 5, 500, [], []⟩, 0, 0, 0⟩

/-- Witness for C8: the two guards at concrete states. -/
theorem agent_step_dep_guard_witness :
    agent_step c8uni c8fs c8llm c8inbox allowed_root_names c8st1
        = ({c8st1 with queue := [], stepN := c8st1.stepN + 1},
          [AgEv.skipDep (fs_norm_path (cl "/v/INBOX/.git/config"))])
    ∧ agent_step c8uni c8fs c8llm c8inbox allowed_root_names c8st2
        = ({c8st2 with
            queue := rotate1 (cl "/v/INBOX/a.txt" :: []),
            stepN := c8st2.stepN + 1,
            llmN := c8st2.llmN + 1},
          [AgEv.stepE (c8st2.stepN + 1) (fs_norm_path (cl "/v/INBOX/a.txt")) ST_LIGHT,
            AgEv.llmCall ST_LIGHT,
            AgEv.sanLog (sanitize_actions c8uni c8inbox (c8llm c8st2.llmN)
              (fs_norm_path (cl "/v/INBOX/a.txt")) allowed_root_names).2,
            AgEv.skipDep (probePath
              (SaneAction.inspectFileA (cl "/v/INBOX/node_modules/x.js"))
              (fs_norm_path (cl "/v/INBOX/a.txt")))]) := by
  refine ⟨?_, ?_⟩
  · exact (agent_step_dep_guard.1 c8uni c8fs c8llm c8inbox allowed_root_names c8st1
      (cl "/v/INBOX/.git/config") [] rfl (by decide)).1
  · exact (agent_step_dep_guard.2 c8uni c8fs c8llm c8inbox allowed_root_names c8st2
      (cl "/v/INBOX/a.txt") []
      (SaneAction.inspectFileA (cl "/v/INBOX/node_modules/x.js")) []
      rfl (by decide) (by decide) (by decide) (by decide) (by decide)).1


/-- Concrete inputs for the C3 divergence: a raw `plan_move` whose subpath
`"/ /"` trims to the single space `" "`, a DECIDE-stage state holding its
source, and oracles under which the move executes. -/
def c3uni : Char → List Char := fun c => [c]

def c3inbox : PPath := ⟨1, [cl "v", cl "INBOX"]⟩

def c3raw : RawAction :=
  ⟨some (cl "plan_move"), none, some (cl "/v/INBOX/sub/a.pdf"),
    some (cl "documents"), some (cl "/ /"), some (cl "a.pdf")⟩

def c3pm : PlanMove :=
  ⟨cl "/v/INBOX/sub/a.pdf", cl "Documents", cl " ", cl "a.pdf"⟩

def c3fs : FsO :=
  ⟨fun _ => false, fun _ => false, fun _ => true, fun _ => [],
    fun p => p, fun _ => none, fun _ => none⟩

def c3llm : Nat → List (Option RawAction) := fun _ => [some c3raw]

def c3st : AgentSt :=
  ⟨[cl "/v/INBOX/sub/a.pdf"], [(cl "/v/INBOX/sub/a.pdf", 1)], [], [], [],
    ⟨3, 4, 5, 500, [], []⟩, 20, 0, 0⟩

/-- Claim C3 (refuted by the code): the sanitizer's empty-subpath drop tests
the un-stripped subpath, but `run` re-strips it before calling the tool
(`sub = (a.get("subpath") or "").strip()`).  The raw subpath `"/ /"`
normalizes to `" "` — non-empty, so the action is kept — yet strips to the
empty string at the orchestrator, which then executes the move with an empty
subpath (the `planExec` event below); `tool_plan_move` receives no subpath
segment and its destination directory is the canonical root itself: a
root-level drop, which the claim says never happens. -/
theorem plan_move_whitespace_subpath_root_drop :
    (sanitize_actions c3uni c3inbox [some c3raw] (cl "/v/INBOX/sub/a.pdf")
        allowed_root_names).1
      = [SaneAction.planMoveA c3pm]
    ∧ c3pm.subpath = cl " "
    ∧ pyStrip c3pm.subpath = []
    ∧ AgEv.planExec (cl "/v/INBOX/sub/a.pdf") (cl "Documents") [] (cl "a.pdf")
        ∈ (agent_step c3uni c3fs c3llm c3inbox allowed_root_names c3st).2
    ∧ tool_plan_move_dest_dir [cl "v2"] (cl "Documents") []
        = some [cl "v2", cl "Documents"]
    ∧ tool_plan_move_dest c3uni [cl "v2"] (cl "Documents") [] (cl "a.pdf")
        = some [cl "v2", cl "Documents", cl "a.pdf"] := by
  refine ⟨by decide, rfl, rfl, by decide, by decide, by decide⟩

end FileSort
